import Mathlib

/-!
# DD4hep conditions persistency (DDCond/src/ConditionsRootPersistency.cpp)

A shallow embedding of `dd4hep::cond::ConditionsRootPersistency`:

* condition objects live on a heap addressed by their pointer; a `Condition`
  handle is that pointer, so two catalog slots holding the same pointer share
  one reference count and one `iov` field;
* the persistent catalog is three vectors of `(iov_key_type, pool_type)`;
* the capture functions `add`, the release functions `_clear` / `clear` and the
  loader `_import` are translated statement by statement;
* the conditions manager is not part of the translated file: `_import` takes
  its three operations (`registerIOVType`, `registerIOV`, pool `insert`) as a
  parameter and records every call it makes in a trace.

Sizes (`size_t` counters) and reference counts are unbounded integers here: a
counter never exceeds the number of pointers held in memory.

The whole object with its name and `duration`, the `DurationStamp`, `save` and
`load` follow, over a clock and the `TFile` calls of ROOT taken as parameters;
then `DetElement::add` of DDCore/src/DetElement.cpp with the `path()` it
evaluates for its error message.
-/

namespace dd4hep

/-! ## Data model -/

/-- The descriptor of one validity dimension: `IOVType::name`, `IOVType::type`. -/
structure IOVType where
  name : String
  type : Int
deriving DecidableEq

/-- The interval bounds `IOV::Key`, a pair `(low, high)`. -/
abbrev IOVKey := Int × Int

/-- One interval of validity: the type it belongs to, its copy of the type
discriminator (`IOV::type`) and its key (`IOV::keyData`). -/
structure IOV where
  iovType : IOVType
  type : Int
  keyData : IOVKey
deriving DecidableEq

/-- The accessor `IOV::key()`. -/
def IOV.key (iov : IOV) : IOVKey := iov.keyData

/-- A `Condition` handle: the address of the `Condition::Object` it points to. -/
abbrev Condition := Nat

/-- The fields of `Condition::Object` the persistency code reads or writes.
`destroyed` records that the object was deleted by a `release()`. -/
structure ConditionObject where
  name : String
  hash : Nat
  iov : Option IOV
  refCount : Int
  destroyed : Bool
deriving DecidableEq

/-- The store of condition objects, by address. -/
abbrev Heap := Condition → ConditionObject

/-- Modelled from the spec: `Condition::Object::addRef()`, whose body is not in
the translated file; it takes one more reference (+1 refcount). -/
def ConditionObject.addRef (o : ConditionObject) : ConditionObject :=
  { o with refCount := o.refCount + 1 }

/-- Modelled from the spec: `Condition::Object::release()`, whose body is not in
the translated file; it drops one reference (-1 refcount) and the object is
destroyed when the count reaches 0. -/
def ConditionObject.release (o : ConditionObject) : ConditionObject :=
  { o with refCount := o.refCount - 1,
           destroyed := o.destroyed || decide (o.refCount - 1 = 0) }

/-- The statement `c.ptr()->addRef()` on the heap. -/
def Heap.addRef (heap : Heap) (c : Condition) : Heap :=
  Function.update heap c (heap c).addRef

/-- The statement `c.ptr()->release()` on the heap. -/
def Heap.release (heap : Heap) (c : Condition) : Heap :=
  Function.update heap c (heap c).release

/-- The assignment `o->iov = iov` on the heap. -/
def Heap.setIOV (heap : Heap) (c : Condition) (iov : IOV) : Heap :=
  Function.update heap c { heap c with iov := some iov }

/-- A `ConditionsPool`: the one IOV its members share and the members in
insertion order. -/
structure ConditionsPool where
  iov : IOV
  members : List Condition
deriving DecidableEq

/-- Modelled from the spec: `ConditionsPool::select_all(out)`, whose body is not
in the translated file; it appends every member to `out` in insertion order and
changes no reference count. -/
def ConditionsPool.select_all (pool : ConditionsPool) (out : List Condition) :
    List Condition :=
  out ++ pool.members

/-- A `ConditionsIOVPool`: the pools of one IOV type, by interval key, in
iteration order of `elements`. -/
structure ConditionsIOVPool where
  elements : List (IOVKey × ConditionsPool)
deriving DecidableEq

/-- A `UserPool`: the interval it is valid for and its active conditions. -/
structure UserPool where
  validityIOV : IOV
  conditions : List Condition
deriving DecidableEq

/-- The accessor `UserPool::validity()`. -/
def UserPool.validity (pool : UserPool) : IOV := pool.validityIOV

/-- Modelled from the spec: `UserPool::scan(processor)`, whose body is not in
the translated file; it invokes the processor once per active condition. The
processor threads its state `σ` and returns an `int`, which `scan` ignores. -/
def UserPool.scan {σ : Type} (pool : UserPool) (process : σ → Condition → σ × Int)
    (s : σ) : σ :=
  pool.conditions.foldl (fun acc c => (process acc c).1) s

/-- The key of a catalog entry: `(identifier, ((type name, discriminator), key))`. -/
abbrev iov_key_type := String × ((String × Int) × IOVKey)

/-- The conditions of a catalog entry. -/
abbrev pool_type := List Condition

/-- One of the three catalogs. -/
abbrev persistent_type := List (iov_key_type × pool_type)

/-- The persistent members of `ConditionsRootPersistency`. -/
structure ConditionsRootPersistency where
  conditionPools : persistent_type
  userPools : persistent_type
  iovPools : persistent_type
deriving DecidableEq

/-- The value-initialised pair pushed by `push_back(pair<iov_key_type, pool_type>())`. -/
def emptyEntry : iov_key_type × pool_type := (("", (("", 0), (0, 0))), [])

/-- A mutation through the reference `v.back()`. -/
def modifyBack {α : Type} (v : List α) (f : α → α) : List α :=
  v.dropLast ++ (v.getLast?.map f).toList

/-- The callback `Scanner::process`: `pool.push_back(c.ptr()); return 1;`. -/
def Scanner.process (pool : pool_type) (c : Condition) : pool_type × Int :=
  (pool ++ [c], 1)

/-- The loop `for(auto c : ent) c.ptr()->addRef();`. -/
def addRefAll (ent : pool_type) (heap : Heap) : Heap :=
  ent.foldl Heap.addRef heap

/-- What an `add` call leaves behind: the returned count, the catalog and the heap. -/
structure AddResult where
  count : Nat
  self : ConditionsRootPersistency
  heap : Heap

/-- The statements of `add` that fill the entry just pushed: the three key
assignments and the collection of the members. -/
def fillBack (v : persistent_type) (identifier : String) (iov : IOV) (key : IOVKey)
    (collect : pool_type → pool_type) : persistent_type :=
  let v1 := modifyBack v (fun e => ((identifier, e.1.2), e.2))
  let v2 := modifyBack v1 (fun e => ((e.1.1, ((iov.iovType.name, iov.type), e.1.2.2)), e.2))
  let v3 := modifyBack v2 (fun e => ((e.1.1, (e.1.2.1, key)), e.2))
  modifyBack v3 (fun e => (e.1, collect e.2))

/-- The members of the entry `v.back()`. -/
def backEntries (v : persistent_type) : pool_type :=
  (v.getLast?.map Prod.snd).getD []

/-- The capture `ConditionsRootPersistency::add(const string&, ConditionsPool&)`. -/
def ConditionsRootPersistency.add_ConditionsPool (self : ConditionsRootPersistency)
    (heap : Heap) (identifier : String) (pool : ConditionsPool) : AddResult :=
  let v0 := self.conditionPools ++ [emptyEntry]
  let iov := pool.iov
  let v := fillBack v0 identifier iov iov.key pool.select_all
  let ent := backEntries v
  { count := ent.length
    self := { self with conditionPools := v }
    heap := addRefAll ent heap }

/-- The body of the loop over `pool.elements` in
`add(const string&, const ConditionsIOVPool&)`, on `(count, iovPools, heap)`. -/
def addElement (identifier : String) (s : Nat × persistent_type × Heap)
    (p : IOVKey × ConditionsPool) : Nat × persistent_type × Heap :=
  let v0 := s.2.1 ++ [emptyEntry]
  let iov := p.2.iov
  let v := fillBack v0 identifier iov p.1 p.2.select_all
  let ent := backEntries v
  (s.1 + ent.length, v, addRefAll ent s.2.2)

/-- The capture `ConditionsRootPersistency::add(const string&, const ConditionsIOVPool&)`. -/
def ConditionsRootPersistency.add_ConditionsIOVPool (self : ConditionsRootPersistency)
    (heap : Heap) (identifier : String) (pool : ConditionsIOVPool) : AddResult :=
  let r := pool.elements.foldl (addElement identifier) (0, self.iovPools, heap)
  { count := r.1
    self := { self with iovPools := r.2.1 }
    heap := r.2.2 }

/-- The capture `ConditionsRootPersistency::add(const string&, const UserPool&)`. -/
def ConditionsRootPersistency.add_UserPool (self : ConditionsRootPersistency)
    (heap : Heap) (identifier : String) (pool : UserPool) : AddResult :=
  let v0 := self.userPools ++ [emptyEntry]
  let iov := pool.validity
  let v := fillBack v0 identifier iov iov.key (pool.scan Scanner.process)
  let ent := backEntries v
  { count := ent.length
    self := { self with userPools := v }
    heap := addRefAll ent heap }

/-- The inner loop of `_clear`: `for(Condition c : p.second) c.ptr()->release();`. -/
def releaseAll (ent : pool_type) (heap : Heap) : Heap :=
  ent.foldl Heap.release heap

/-- The body of the outer loop of `_clear`: release the members, then
`p.second.clear()`. -/
def clearEntry (s : persistent_type × Heap) (p : iov_key_type × pool_type) :
    persistent_type × Heap :=
  (s.1 ++ [(p.1, [])], releaseAll p.2 s.2)

/-- The helper `ConditionsRootPersistency::_clear(persistent_type&)`: the outer
loop, then `pool.clear()`. -/
def ConditionsRootPersistency._clear (pool : persistent_type) (heap : Heap) :
    persistent_type × Heap :=
  let r := pool.foldl clearEntry ([], heap)
  ([], r.2)

/-- The method `ConditionsRootPersistency::clear()`. -/
def ConditionsRootPersistency.clear (self : ConditionsRootPersistency) (heap : Heap) :
    ConditionsRootPersistency × Heap :=
  let r1 := ConditionsRootPersistency._clear self.conditionPools heap
  let r2 := ConditionsRootPersistency._clear self.userPools r1.2
  let r3 := ConditionsRootPersistency._clear self.iovPools r2.2
  ({ conditionPools := r1.1, userPools := r2.1, iovPools := r3.1 }, r3.2)

/-! ## Import -/

/-- The operations of `ConditionsManager` and `ConditionsPool` that `_import`
calls, over a manager state `M` and pool handles `P`. Their bodies are not in
the translated file, so they are a parameter. `registerIOVType` returns the
pair `(created, pointer)`, a null pointer being `none`; `insert` sees the heap
(members are compared by hash) and leaves the counting of references to its
caller, which hands over the reference it took with `addRef()`. -/
structure ManagerOps (M P : Type) where
  registerIOVType : M → Int → String → M × (Bool × Option IOVType)
  registerIOV : M → IOVType → IOVKey → M × P
  poolIOV : M → P → IOV
  insert : M → Heap → P → Condition → M × Bool

/-- A call made by `_import`, with what it returned. -/
inductive Event where
  | registerIOVType (type : Int) (name : String) (result : Option IOVType)
  | registerIOV (typ : IOVType) (key : IOVKey)
  | insert (c : Condition) (inserted : Bool)
  | warning (condition : String) (id : String) (iov_type : String)
deriving DecidableEq

/-- The state of a running `_import`: the local `count`, the manager, the heap
and the calls made so far. -/
structure ImportState (M : Type) where
  count : Nat
  mgr : M
  heap : Heap
  trace : List Event

/-- The body of the loop `for (Condition c : iovp.second)` of `_import`. -/
def importCondition {M P : Type} (ops : ManagerOps M P) (pool : P)
    (id iov_type : String) (s : ImportState M) (c : Condition) : ImportState M :=
  let heap1 := s.heap.setIOV c (ops.poolIOV s.mgr pool)
  let heap2 := heap1.addRef c
  let r := ops.insert s.mgr heap2 pool c
  if r.2 then
    { count := s.count + 1, mgr := r.1, heap := heap2,
      trace := s.trace ++ [Event.insert c true] }
  else
    { count := s.count, mgr := r.1, heap := heap2,
      trace := s.trace ++ [Event.insert c false,
                           Event.warning (heap2 c).name id iov_type] }

/-- The part of the loop body of `_import` below the two `continue` tests:
register the type and, when a type comes back, the IOV, then load the
conditions of the entry. -/
def processEntry {M P : Type} (ops : ManagerOps M P) (id iov_type : String)
    (s : ImportState M) (iovp : iov_key_type × pool_type) : ImportState M :=
  let key := iovp.1
  let iovTyp := ops.registerIOVType s.mgr key.2.1.2 key.2.1.1
  let s1 : ImportState M :=
    { s with mgr := iovTyp.1,
             trace := s.trace ++ [Event.registerIOVType key.2.1.2 key.2.1.1 iovTyp.2.2] }
  match iovTyp.2.2 with
  | none => s1
  | some typ =>
    let pool := ops.registerIOV s1.mgr typ key.2.2
    let s2 : ImportState M :=
      { s1 with mgr := pool.1, trace := s1.trace ++ [Event.registerIOV typ key.2.2] }
    iovp.2.foldl (importCondition ops pool.2 id iov_type) s2

/-- The body of the loop `for (auto& iovp : persistent_pools)` of `_import`. -/
def importEntry {M P : Type} (ops : ManagerOps M P) (id iov_type : String)
    (s : ImportState M) (iovp : iov_key_type × pool_type) : ImportState M :=
  let key := iovp.1
  if !(id.isEmpty || id == "*" || key.1 == id) then s
  else if !(iov_type.isEmpty || iov_type == "*" || key.2.1.1 == iov_type) then s
  else processEntry ops id iov_type s iovp

/-- The helper `ConditionsRootPersistency::_import`. -/
def ConditionsRootPersistency._import {M P : Type} (ops : ManagerOps M P)
    (persistent_pools : persistent_type) (id iov_type : String) (mgr : M)
    (heap : Heap) : ImportState M :=
  persistent_pools.foldl (importEntry ops id iov_type)
    { count := 0, mgr := mgr, heap := heap, trace := [] }

/-- The method `ConditionsRootPersistency::importIOVPool`. -/
def ConditionsRootPersistency.importIOVPool {M P : Type} (self : ConditionsRootPersistency)
    (ops : ManagerOps M P) (identifier iov_type : String) (mgr : M) (heap : Heap) :
    ImportState M :=
  ConditionsRootPersistency._import ops self.iovPools identifier iov_type mgr heap

/-- The method `ConditionsRootPersistency::importUserPool`. -/
def ConditionsRootPersistency.importUserPool {M P : Type} (self : ConditionsRootPersistency)
    (ops : ManagerOps M P) (identifier iov_type : String) (mgr : M) (heap : Heap) :
    ImportState M :=
  ConditionsRootPersistency._import ops self.userPools identifier iov_type mgr heap

/-- The method `ConditionsRootPersistency::importConditionsPool`. -/
def ConditionsRootPersistency.importConditionsPool {M P : Type}
    (self : ConditionsRootPersistency) (ops : ManagerOps M P)
    (identifier iov_type : String) (mgr : M) (heap : Heap) : ImportState M :=
  ConditionsRootPersistency._import ops self.conditionPools identifier iov_type mgr heap

/-! ## The manager, from the specification -/

/-- Modelled from the spec: the live store behind `ConditionsManager`, whose
code is not in the translated file (spec sections 3 and 4.1). It keeps one
`IOVType` per name and at most one `ConditionsPool` per IOV, the IOV being the
pair of a registered type and an interval key. -/
structure ManagerState where
  iovTypes : String → Option IOVType
  pools : IOV → Option ConditionsPool

/-- Modelled from the spec: a fresh manager, with no type registered and no
pool created. -/
def ManagerState.fresh : ManagerState :=
  { iovTypes := fun _ => none, pools := fun _ => none }

/-- Modelled from the spec: `ConditionsManager::registerIOVType(discriminator,
name) -> (created, IOVType ref)`, an idempotent get-or-create keyed by `name`
that returns the existing type if present. -/
def ManagerState.registerIOVType (m : ManagerState) (type : Int) (name : String) :
    ManagerState × (Bool × Option IOVType) :=
  match m.iovTypes name with
  | some t => (m, (false, some t))
  | none =>
    ({ m with iovTypes := Function.update m.iovTypes name (some { name := name, type := type }) },
     (true, some { name := name, type := type }))

/-- Modelled from the spec: `ConditionsManager::registerIOV(iovType, key) ->
ConditionsPool ref`, an idempotent get-or-create: two lookups with identical
`(iovType, key)` give the same pool. The handle of a pool is its IOV. -/
def ManagerState.registerIOV (m : ManagerState) (typ : IOVType) (key : IOVKey) :
    ManagerState × IOV :=
  match m.pools { iovType := typ, type := typ.type, keyData := key } with
  | some _ => (m, { iovType := typ, type := typ.type, keyData := key })
  | none =>
    ({ m with pools := Function.update m.pools { iovType := typ, type := typ.type, keyData := key }
                (some { iov := { iovType := typ, type := typ.type, keyData := key },
                        members := [] }) },
     { iovType := typ, type := typ.type, keyData := key })

/-- Modelled from the spec: `ConditionsPool::insert(condition) -> inserted`,
duplicate-safe by hash: a condition whose hash a member already has is refused
and the pool is left as it was; otherwise it becomes the last member. -/
def ConditionsPool.insert (pool : ConditionsPool) (heap : Heap) (c : Condition) :
    ConditionsPool × Bool :=
  if pool.members.any (fun m => (heap m).hash == (heap c).hash) then (pool, false)
  else ({ pool with members := pool.members ++ [c] }, true)

/-- Modelled from the spec: `pool->insert(condition)` through a pool handle of
the manager. -/
def ManagerState.insert (m : ManagerState) (heap : Heap) (p : IOV) (c : Condition) :
    ManagerState × Bool :=
  match m.pools p with
  | none => (m, false)
  | some pool =>
    if (pool.insert heap c).2 then
      ({ m with pools := Function.update m.pools p (some (pool.insert heap c).1) }, true)
    else (m, false)

/-- Modelled from the spec: the field `pool->iov` through a pool handle of the
manager. -/
def ManagerState.poolIOV (m : ManagerState) (p : IOV) : IOV :=
  match m.pools p with
  | some pool => pool.iov
  | none => p

/-- Modelled from the spec: the manager operations of spec section 4.1 and 4.2,
packed as the parameter `_import` takes. -/
def specManager : ManagerOps ManagerState IOV :=
  { registerIOVType := ManagerState.registerIOVType
    registerIOV := ManagerState.registerIOV
    poolIOV := ManagerState.poolIOV
    insert := ManagerState.insert }

/-! ## Vocabulary of the statements -/

/-- The match rule of the import filters in the words of the specification:
the empty string or `"*"` matches anything, any other string matches by exact
equality. -/
abbrev matchRule (filter value : String) : Prop :=
  filter = "" ∨ filter = "*" ∨ value = filter

/-- An entry key passes both import filters under the match rule. -/
abbrev selected (id pat : String) (key : iov_key_type) : Prop :=
  matchRule id key.1 ∧ matchRule pat key.2.1.1

/-- The state `_import` starts from. -/
def ImportState.start {M : Type} (mgr : M) (heap : Heap) : ImportState M :=
  { count := 0, mgr := mgr, heap := heap, trace := [] }

/-- The arguments and result of a `registerIOVType` call. -/
def Event.registered? : Event → Option ((Int × String) × Option IOVType)
  | Event.registerIOVType type name result => some ((type, name), result)
  | _ => none

/-- The condition of an `insert` call. -/
def Event.attempt? : Event → Option Condition
  | Event.insert c _ => some c
  | _ => none

/-- The event is an `insert` call that reported success. -/
def Event.isInserted : Event → Bool
  | Event.insert _ true => true
  | _ => false

/-- The event is an `insert` call on `c` that reported a duplicate. -/
def Event.isDuplicateOf (c : Condition) : Event → Bool
  | Event.insert d false => decide (d = c)
  | _ => false

/-- The event is an `insert` call on `c` that reported success. -/
def Event.isInsertedOf (c : Condition) : Event → Bool
  | Event.insert d true => decide (d = c)
  | _ => false

/-- The event is a duplicate warning. -/
def Event.isWarning : Event → Bool
  | Event.warning _ _ _ => true
  | _ => false

/-- All conditions held by a catalog, entry after entry. -/
def allConditions (pools : persistent_type) : List Condition :=
  pools.flatMap Prod.snd

/-- One capture call: the `add` overload and its arguments. -/
inductive AddCall where
  | conditionsPool (identifier : String) (pool : ConditionsPool)
  | conditionsIOVPool (identifier : String) (pool : ConditionsIOVPool)
  | userPool (identifier : String) (pool : UserPool)

/-- The capture call made on a catalog and a heap. -/
def AddCall.run (s : ConditionsRootPersistency × Heap) :
    AddCall → ConditionsRootPersistency × Heap
  | AddCall.conditionsPool identifier pool =>
    ((s.1.add_ConditionsPool s.2 identifier pool).self,
     (s.1.add_ConditionsPool s.2 identifier pool).heap)
  | AddCall.conditionsIOVPool identifier pool =>
    ((s.1.add_ConditionsIOVPool s.2 identifier pool).self,
     (s.1.add_ConditionsIOVPool s.2 identifier pool).heap)
  | AddCall.userPool identifier pool =>
    ((s.1.add_UserPool s.2 identifier pool).self,
     (s.1.add_UserPool s.2 identifier pool).heap)

/-- The catalog of a default-constructed `ConditionsRootPersistency`. -/
def ConditionsRootPersistency.empty : ConditionsRootPersistency :=
  { conditionPools := [], userPools := [], iovPools := [] }

/-- A catalog built from empty by a sequence of capture calls, with the heap
these calls leave. -/
def runAdds (calls : List AddCall) (heap : Heap) : ConditionsRootPersistency × Heap :=
  calls.foldl AddCall.run (ConditionsRootPersistency.empty, heap)

/-- How often a condition is held across the three catalogs. -/
def ConditionsRootPersistency.occurrences (self : ConditionsRootPersistency)
    (c : Condition) : Nat :=
  (allConditions self.conditionPools).count c + (allConditions self.userPools).count c
    + (allConditions self.iovPools).count c

/-- After capture calls every object differs from the base heap only by one
reference per occurrence in the catalog. -/
def Captured (base : Heap) (s : ConditionsRootPersistency × Heap) : Prop :=
  ∀ c, s.2 c = { base c with refCount := (base c).refCount + (s.1.occurrences c : Int) }

/-- Every pool of `m` is still there in `m'` with at least its members, and
every registered type is still registered. -/
def ManagerState.Grows (m m' : ManagerState) : Prop :=
  (∀ n t, m.iovTypes n = some t → m'.iovTypes n = some t)
  ∧ (∀ i p, m.pools i = some p → ∃ p', m'.pools i = some p' ∧ ∀ x ∈ p.members, x ∈ p'.members)

/-- The destination pool of the entry exists in `m` and holds, for every
condition of the entry, a member with the same hash (`hf` gives the hashes). -/
def Covered (hf : Condition → Nat) (m : ManagerState) (e : iov_key_type × pool_type) : Prop :=
  ∃ t, m.iovTypes e.1.2.1.1 = some t
    ∧ ∃ p, m.pools { iovType := t, type := t.type, keyData := e.1.2.2 } = some p
      ∧ ∀ c ∈ e.2, ∃ x ∈ p.members, hf x = hf c

/-! ## A concrete run: the example of the specification -/

/-- The IOV of the example: type `("run", 1)`, key `(100, 200)`. -/
def sampleIOV : IOV :=
  { iovType := { name := "run", type := 1 }, type := 1, keyData := (100, 200) }

/-- A heap whose object at address `c` has hash `c` and one reference, the one
of the pool it was inserted into. -/
def sampleHeap : Heap :=
  fun c => { name := "c", hash := c, iov := none, refCount := 1, destroyed := false }

/-- The pool of the example, with three conditions. -/
def samplePool : ConditionsPool := { iov := sampleIOV, members := [0, 1, 2] }

/-- An IOV pool with the pool of the example as its only element. -/
def sampleIOVPool : ConditionsIOVPool := { elements := [((100, 200), samplePool)] }

/-- A user pool valid for the IOV of the example. -/
def sampleUserPool : UserPool := { validityIOV := sampleIOV, conditions := [0, 1] }

/-- The capture `add("batchA", pool)` of the example on an empty catalog. -/
def sampleCapture : AddResult :=
  ConditionsRootPersistency.empty.add_ConditionsPool sampleHeap "batchA" samplePool

/-- The first `importConditionsPool("batchA", "run", mgr)` on a fresh manager. -/
def sampleFirstImport : ImportState ManagerState :=
  sampleCapture.self.importConditionsPool specManager "batchA" "run" ManagerState.fresh
    sampleCapture.heap

/-- The same call repeated on the manager and heap the first one left. -/
def sampleSecondImport : ImportState ManagerState :=
  sampleCapture.self.importConditionsPool specManager "batchA" "run" sampleFirstImport.mgr
    sampleFirstImport.heap

/-- The pool `registerIOV` returns for an entry that is loaded in state `s`
after `registerIOVType` returned `typ`: the manager the call leaves and the
pool handle. -/
def entryPool {M P : Type} (ops : ManagerOps M P) (s : ImportState M)
    (e : iov_key_type × pool_type) (typ : IOVType) : M × P :=
  ops.registerIOV (ops.registerIOVType s.mgr e.1.2.1.2 e.1.2.1.1).1 typ e.1.2.2

/-- The IOV of the pool `registerIOV` returns for an entry loaded in state `s`. -/
def entryIOV {M P : Type} (ops : ManagerOps M P) (s : ImportState M)
    (e : iov_key_type × pool_type) (typ : IOVType) : IOV :=
  ops.poolIOV (entryPool ops s e typ).1 (entryPool ops s e typ).2

/-- The catalog after the pool of the example was captured under two identifiers. -/
def sampleTwoIdentifiers : ConditionsRootPersistency × Heap :=
  runAdds [AddCall.conditionsPool "A" samplePool, AddCall.conditionsPool "B" samplePool]
    sampleHeap

/-- A second user pool, valid for a shorter interval, that shares condition 0
with the user pool of the example. -/
def sampleShortUserPool : UserPool :=
  { validityIOV := { iovType := { name := "run", type := 1 }, type := 1, keyData := (150, 180) },
    conditions := [0] }

/-- The catalog after the two user pools were captured under one identifier. -/
def sampleTwoUserPools : ConditionsRootPersistency × Heap :=
  runAdds [AddCall.userPool "A" sampleUserPool, AddCall.userPool "A" sampleShortUserPool]
    sampleHeap

/-- Modelled from the spec: a manager in which `registerIOVType` yields no
usable type for the type name `refused` (spec section 4.3, step 4) and which in
everything else is `specManager`. -/
def refusingManager (refused : String) : ManagerOps ManagerState IOV :=
  { registerIOVType := fun m type name =>
      if name = refused then (m, (false, none)) else m.registerIOVType type name
    registerIOV := ManagerState.registerIOV
    poolIOV := ManagerState.poolIOV
    insert := ManagerState.insert }

/-- A catalog of five entries: two selected by the identifier "A" whose type
"run" is usable, then an entry of the identifier "B", an entry of the type
"time" and a last entry of the type "run" that does not hold condition 0. -/
def sampleMixedCatalog : persistent_type :=
  [(("A", (("run", 1), (100, 200))), [0, 1]),
   (("A", (("run", 1), (150, 180))), [0]),
   (("B", (("run", 1), (300, 400))), [0]),
   (("A", (("time", 2), (0, 10))), [0]),
   (("A", (("run", 1), (500, 600))), [1])]

/-- A catalog in which condition 2 is held by an entry of the type "time" and
by an entry of the identifier "B" only. -/
def sampleSkippedCatalog : persistent_type :=
  [(("A", (("time", 2), (0, 10))), [2]),
   (("B", (("run", 1), (100, 200))), [2, 1]),
   (("A", (("run", 1), (100, 200))), [0, 1])]

/-! ## The whole object, the clock and the storage -/

/-- A whole `ConditionsRootPersistency` object: next to the three catalogs, the
name it has as a `TNamed` and the member `duration`. -/
structure PersistencyObject where
  name : String
  catalogs : ConditionsRootPersistency
  duration : Int
deriving DecidableEq

/-- The wall clock that `TTimeStamp()` reads: `readings i` is what reading
number `i` returns and `taken` counts the readings made so far. A reading is
an integer number of ticks; the conversion `AsDouble()` is left out. -/
structure Clock where
  readings : Nat → Int
  taken : Nat

/-- The default constructor `TTimeStamp()`: the current time. -/
def Clock.read (clock : Clock) : Int × Clock :=
  (clock.readings clock.taken, { clock with taken := clock.taken + 1 })

/-- The member `start` of a `DurationStamp`; the member `object` is the
object the method runs on. -/
structure DurationStamp where
  start : Int

/-- The constructor `DurationStamp(obj)`: `start` is read from the clock. -/
def DurationStamp.construct (clock : Clock) : DurationStamp × Clock :=
  ({ start := clock.read.1 }, clock.read.2)

/-- The destructor `~DurationStamp()`: `TTimeStamp stop;
object->duration = stop.AsDouble()-start.AsDouble();`. -/
def DurationStamp.destruct (stamp : DurationStamp) (object : PersistencyObject)
    (clock : Clock) : PersistencyObject × Clock :=
  ({ object with duration := clock.read.1 - stamp.start }, clock.read.2)

/-- What a method call leaves: the returned value, the object and the clock. -/
structure MethodResult (α : Type) where
  value : α
  self : PersistencyObject
  clock : Clock

/-- The method `add(const string&, ConditionsPool&)` with its `DurationStamp`. -/
def PersistencyObject.add_ConditionsPool (self : PersistencyObject) (clock : Clock)
    (heap : Heap) (identifier : String) (pool : ConditionsPool) : MethodResult (Nat × Heap) :=
  let stamp := DurationStamp.construct clock
  let r := self.catalogs.add_ConditionsPool heap identifier pool
  let out := stamp.1.destruct { self with catalogs := r.self } stamp.2
  { value := (r.count, r.heap), self := out.1, clock := out.2 }

/-- The method `add(const string&, const ConditionsIOVPool&)` with its `DurationStamp`. -/
def PersistencyObject.add_ConditionsIOVPool (self : PersistencyObject) (clock : Clock)
    (heap : Heap) (identifier : String) (pool : ConditionsIOVPool) :
    MethodResult (Nat × Heap) :=
  let stamp := DurationStamp.construct clock
  let r := self.catalogs.add_ConditionsIOVPool heap identifier pool
  let out := stamp.1.destruct { self with catalogs := r.self } stamp.2
  { value := (r.count, r.heap), self := out.1, clock := out.2 }

/-- The method `add(const string&, const UserPool&)` with its `DurationStamp`. -/
def PersistencyObject.add_UserPool (self : PersistencyObject) (clock : Clock)
    (heap : Heap) (identifier : String) (pool : UserPool) : MethodResult (Nat × Heap) :=
  let stamp := DurationStamp.construct clock
  let r := self.catalogs.add_UserPool heap identifier pool
  let out := stamp.1.destruct { self with catalogs := r.self } stamp.2
  { value := (r.count, r.heap), self := out.1, clock := out.2 }

/-- The method `clear()` on the whole object: the three `_clear` calls and
nothing else. -/
def PersistencyObject.clear (self : PersistencyObject) (heap : Heap) :
    PersistencyObject × Heap :=
  ({ self with catalogs := (self.catalogs.clear heap).1 }, (self.catalogs.clear heap).2)

/-- The method `importIOVPool` with its `DurationStamp`; `_import` gets the
catalog by reference and the object keeps it. -/
def PersistencyObject.importIOVPool {M P : Type} (self : PersistencyObject)
    (ops : ManagerOps M P) (clock : Clock) (identifier iov_type : String) (mgr : M)
    (heap : Heap) : MethodResult (ImportState M) :=
  let stamp := DurationStamp.construct clock
  let r := ConditionsRootPersistency._import ops self.catalogs.iovPools identifier iov_type
    mgr heap
  let out := stamp.1.destruct self stamp.2
  { value := r, self := out.1, clock := out.2 }

/-- The method `importUserPool` with its `DurationStamp`. -/
def PersistencyObject.importUserPool {M P : Type} (self : PersistencyObject)
    (ops : ManagerOps M P) (clock : Clock) (identifier iov_type : String) (mgr : M)
    (heap : Heap) : MethodResult (ImportState M) :=
  let stamp := DurationStamp.construct clock
  let r := ConditionsRootPersistency._import ops self.catalogs.userPools identifier iov_type
    mgr heap
  let out := stamp.1.destruct self stamp.2
  { value := r, self := out.1, clock := out.2 }

/-- The method `importConditionsPool` with its `DurationStamp`. -/
def PersistencyObject.importConditionsPool {M P : Type} (self : PersistencyObject)
    (ops : ManagerOps M P) (clock : Clock) (identifier iov_type : String) (mgr : M)
    (heap : Heap) : MethodResult (ImportState M) :=
  let stamp := DurationStamp.construct clock
  let r := ConditionsRootPersistency._import ops self.catalogs.conditionPools identifier
    iov_type mgr heap
  let out := stamp.1.destruct self stamp.2
  { value := r, self := out.1, clock := out.2 }

/-- The calls of ROOT's `TFile` that `save` and `load` make, over file handles
`F`. ROOT is a library outside the repository, so the calls are a parameter:
`Open` may return a null pointer (`none`), `WriteTObject` returns an `int` and
`Get` returns the stored object or a null pointer. -/
structure TFileOps (F : Type) where
  Open : String → String → Option F
  IsZombie : F → Bool
  GetName : F → String
  WriteTObject : F → PersistencyObject → String → Int
  Get : F → String → Option PersistencyObject

/-- A call on the storage made by `save`. -/
inductive FileCall (F : Type) where
  | Open (fname : String) (option : String)
  | WriteTObject (file : F) (name : String)
  | Close (file : F)
  | deleted (file : F)
deriving DecidableEq

/-- The method `save(TFile* file)`. -/
def PersistencyObject.save_TFile {F : Type} (self : PersistencyObject) (ops : TFileOps F)
    (clock : Clock) (file : F) : MethodResult (Int × List (FileCall F)) :=
  let stamp := DurationStamp.construct clock
  let nBytes := ops.WriteTObject file self self.name
  let out := stamp.1.destruct self stamp.2
  { value := (nBytes, [FileCall.WriteTObject file self.name]), self := out.1, clock := out.2 }

/-- The method `save(const string& fname)`. -/
def PersistencyObject.save {F : Type} (self : PersistencyObject) (ops : TFileOps F)
    (clock : Clock) (fname : String) : MethodResult (Int × List (FileCall F)) :=
  let stamp := DurationStamp.construct clock
  match ops.Open fname "RECREATE" with
  | some file =>
    if !ops.IsZombie file then
      let r := self.save_TFile ops stamp.2 file
      let out := stamp.1.destruct r.self r.clock
      { value := (r.value.1,
                  FileCall.Open fname "RECREATE" :: r.value.2
                    ++ [FileCall.Close file, FileCall.deleted file]),
        self := out.1, clock := out.2 }
    else
      let out := stamp.1.destruct self stamp.2
      { value := (-1, [FileCall.Open fname "RECREATE"]), self := out.1, clock := out.2 }
  | none =>
    let out := stamp.1.destruct self stamp.2
    { value := (-1, [FileCall.Open fname "RECREATE"]), self := out.1, clock := out.2 }

/-- The static method `load(TFile* file, const string& obj)`. A call of
`except(...)` raises: it is `Except.error` with the formatted message, and the
statements after it are not run. The result of a normal return is the
`unique_ptr`, `none` when it is empty. -/
def PersistencyObject.load {F : Type} (ops : TFileOps F) (clock : Clock) (file : Option F)
    (obj : String) : Except String (Option PersistencyObject) × Clock :=
  match file with
  | some f =>
    if !ops.IsZombie f then
      let start := clock.read
      let p := ops.Get f obj
      let stop := start.2.read
      match p with
      | some o => (Except.ok (some { o with duration := stop.1 - start.1 }), stop.2)
      | none =>
        (Except.error ("+++ FAILED to load object " ++ obj ++ " from file " ++ ops.GetName f),
         stop.2)
    else
      (Except.error ("+++ FAILED to load object " ++ obj ++ " from file [Invalid file]"), clock)
  | none =>
    (Except.error ("+++ FAILED to load object " ++ obj ++ " from file [Invalid file]"), clock)

/-- Opening the storage in create/overwrite mode fails: `TFile::Open` returns
a null pointer or a zombie. -/
def TFileOps.openFails {F : Type} (ops : TFileOps F) (fname : String) : Bool :=
  match ops.Open fname "RECREATE" with
  | some file => ops.IsZombie file
  | none => true

/-- A storage for the example: it opens every path but `"/"` as handle 0,
which is no zombie, a write takes 100 bytes and the captured example is stored
under the name `"Conditions"`. -/
def sampleStorage : TFileOps Nat :=
  { Open := fun fname _ => if fname = "/" then none else some 0
    IsZombie := fun _ => false
    GetName := fun _ => "x.dat"
    WriteTObject := fun _ _ _ => 100
    Get := fun _ name =>
      if name = "Conditions" then
        some { name := "Conditions", catalogs := sampleCapture.self, duration := 0 }
      else none }

/-- A clock whose reading number `i` is `10 * i`. -/
def sampleClock : Clock := { readings := fun i => 10 * i, taken := 0 }

/-- The condition and the outcome of an `insert` call. -/
def Event.insertResult? : Event → Option (Condition × Bool)
  | Event.insert c inserted => some (c, inserted)
  | _ => none

/-! ## Detector elements (DDCore/src/DetElement.cpp) -/

/-- A `DetElement` handle: the address of the object it points to, `none` for
an invalid handle. -/
abbrev DetElement := Option Nat

/-- The members of `DetElement::Object` that `add`, `path`, `level` and
`make_path` read or write. `children` is the map from child name to handle. -/
structure DetElementObject where
  name : String
  parent : DetElement
  children : String → Option DetElement
  path : String
  level : Int
  key : Nat

/-- The store of detector element objects, by address. -/
abbrev DetHeap := Nat → DetElementObject

/-- The body of `DetElement::path()` on a valid or invalid handle, with the
call of `make_path` it makes given as `mp`: the cached path when there is one,
otherwise the path `make_path` leaves. -/
def pathWith (mp : DetHeap → Nat → Option DetHeap) (heap : DetHeap) (self : DetElement) :
    Option (DetHeap × String) :=
  match self with
  | some o =>
    if !(heap o).path.isEmpty then some (heap, (heap o).path)
    else
      match mp heap o with
      | some heap1 => some (heap1, (heap1 o).path)
      | none => none
  | none => some (heap, "")

/-- The body of `DetElement::level()`, with the call of `make_path` it makes
given as `mp`. -/
def levelWith (mp : DetHeap → Nat → Option DetHeap) (heap : DetHeap) (self : DetElement) :
    Option (DetHeap × Int) :=
  match self with
  | some o =>
    if 0 ≤ (heap o).level then some (heap, (heap o).level)
    else
      match mp heap o with
      | some heap1 => some (heap1, (heap1 o).level)
      | none => none
  | none => some (heap, -1)

/-- The helper `make_path(o)`. It calls `par.path()` and `par.level()`, which
call `make_path` on the parent: `fuel` bounds the depth of these nested calls
and `none` says the bound was reached. `hash32` is `dd4hep::detail::hash32`,
which is outside the translated file. -/
def make_path (hash32 : String → Nat) : Nat → DetHeap → Nat → Option DetHeap
  | 0, _, _ => none
  | fuel + 1, heap, o =>
    match (heap o).parent with
    | some par =>
      match pathWith (make_path hash32 fuel) heap (some par) with
      | none => none
      | some (heap1, parPath) =>
        let heap2 := Function.update heap1 o
          { heap1 o with path := parPath ++ "/" ++ (heap1 o).name }
        if (heap2 o).level < 0 then
          match levelWith (make_path hash32 fuel) heap2 (some par) with
          | none => none
          | some (heap3, parLevel) =>
            let heap4 := Function.update heap3 o { heap3 o with level := parLevel + 1 }
            some (Function.update heap4 o { heap4 o with key := hash32 (heap4 o).path })
        else
          some (Function.update heap2 o { heap2 o with key := hash32 (heap2 o).path })
    | none =>
      let heap1 := Function.update heap o
        { heap o with path := "/" ++ (heap o).name, level := 0 }
      some (Function.update heap1 o { heap1 o with key := hash32 (heap1 o).path })

/-- The method `DetElement::path()`. -/
def DetElement.path (hash32 : String → Nat) (fuel : Nat) (heap : DetHeap)
    (self : DetElement) : Option (DetHeap × String) :=
  pathWith (make_path hash32 fuel) heap self

/-- How a call of `DetElement::add` ends: it returns `*this`, or it raises
through `except(...)`; both with the heap it leaves. -/
inductive AddOutcome where
  | returned (self : DetElement) (heap : DetHeap)
  | raised (message : String) (heap : DetHeap)

/-- The method `DetElement::add(DetElement sdet)`. The argument is a valid
handle, given by its address. `none`: the evaluation of `this->path()` for the
message did not come back within `fuel` nested calls. -/
def DetElement.add (hash32 : String → Nat) (fuel : Nat) (heap : DetHeap)
    (self : DetElement) (sdet : Nat) : Option AddOutcome :=
  match self with
  | some p =>
    match (heap p).children (heap sdet).name with
    | none =>
      let heap1 := Function.update heap p
        { heap p with children :=
            Function.update (heap p).children (heap sdet).name (some (some sdet)) }
      let heap2 := Function.update heap1 sdet { heap1 sdet with parent := some p }
      some (AddOutcome.returned (some p) heap2)
    | some _ =>
      match DetElement.path hash32 fuel heap (some p) with
      | some (heap1, thisPath) =>
        some (AddOutcome.raised
          ("DetElement::add: Element " ++ (heap1 sdet).name ++ " is already present in path "
            ++ thisPath ++ " [Double-Insert]") heap1)
      | none => none
  | none => some (AddOutcome.raised "DetElement::add: Self is not defined [Invalid Handle]" heap)

/-- Following the parent links from `o` for at most `n` elements reaches an
element without parent. -/
def parentChainEnds (heap : DetHeap) : Nat → Nat → Bool
  | 0, _ => false
  | n + 1, o =>
    match (heap o).parent with
    | some par => parentChainEnds heap n par
    | none => true

/-- The links of the hierarchy are the same in both heaps: names, parents and
children maps. -/
def SameHierarchy (heap heap' : DetHeap) : Prop :=
  ∀ x, (heap' x).name = (heap x).name ∧ (heap' x).parent = (heap x).parent
    ∧ (heap' x).children = (heap x).children

/-- Two new elements `a` (address 0) and `b` (every other address), without
parent, children or cached path. -/
def freshElements : DetHeap :=
  fun x => { name := if x = 0 then "a" else "b", parent := none, children := fun _ => none,
             path := "", level := -1, key := 0 }

/-- The heap of an outcome. -/
def AddOutcome.heap : AddOutcome → DetHeap
  | AddOutcome.returned _ heap => heap
  | AddOutcome.raised _ heap => heap

/-- The heap after `a.add(b)` on the two new elements. -/
def oneChild : DetHeap :=
  match DetElement.add String.length 0 freshElements (some 0) 1 with
  | some out => out.heap
  | none => freshElements

/-- The heap after `a.add(b); b.add(a)` on the two new elements: each is the
parent of the other. -/
def cyclicElements : DetHeap :=
  match DetElement.add String.length 0 oneChild (some 1) 0 with
  | some out => out.heap
  | none => oneChild

/-! # Theorems -/

/-! ## The loop of `_import`: which entries it loads and what it calls -/

theorem filter_test_eq (f v : String) :
    (f.isEmpty || f == "*" || v == f) = decide (matchRule f v) := by
  rw [Bool.eq_iff_iff]
  simp [matchRule, String.isEmpty_iff, or_assoc]

theorem importEntry_eq {M P : Type} (ops : ManagerOps M P) (id pat : String)
    (s : ImportState M) (e : iov_key_type × pool_type) :
    importEntry ops id pat s e
      = if selected id pat e.1 then processEntry ops id pat s e else s := by
  unfold importEntry selected
  simp only [filter_test_eq]
  by_cases h1 : matchRule id e.1.1 <;> by_cases h2 : matchRule pat e.1.2.1.1 <;>
    simp [h1, h2]

theorem foldl_ite_filter {α σ : Type} (p : α → Prop) [DecidablePred p] (f : σ → α → σ)
    (l : List α) (s : σ) :
    l.foldl (fun acc a => if p a then f acc a else acc) s
      = (l.filter (fun a => decide (p a))).foldl f s := by
  induction l generalizing s with
  | nil => rfl
  | cons a l ih =>
    by_cases h : p a
    · simp [List.filter_cons, h, ih]
    · simp [List.filter_cons, h, ih]

theorem import_eq_foldl_filter {M P : Type} (ops : ManagerOps M P)
    (pools : persistent_type) (id pat : String) (mgr : M) (heap : Heap) :
    ConditionsRootPersistency._import ops pools id pat mgr heap
      = (pools.filter (fun e => decide (selected id pat e.1))).foldl
          (processEntry ops id pat) (ImportState.start mgr heap) := by
  unfold ConditionsRootPersistency._import ImportState.start
  rw [← foldl_ite_filter]
  congr 1
  funext s e
  exact importEntry_eq ops id pat s e

theorem importCondition_trace {M P : Type} (ops : ManagerOps M P) (pool : P)
    (id pat : String) (s : ImportState M) (c : Condition) :
    ∃ ok : Bool, ∃ w : List Event,
      (importCondition ops pool id pat s c).trace = s.trace ++ Event.insert c ok :: w
      ∧ (∀ e ∈ w, ∃ n, e = Event.warning n id pat)
      ∧ (ok = true → w = [])
      ∧ (ok = false → w.length = 1)
      ∧ (importCondition ops pool id pat s c).count = s.count + (if ok then 1 else 0) := by
  unfold importCondition
  by_cases h : (ops.insert s.mgr ((s.heap.setIOV c (ops.poolIOV s.mgr pool)).addRef c) pool c).2 = true
  · refine ⟨true, [], ?_⟩
    simp [h]
  · refine ⟨false, [Event.warning (((s.heap.setIOV c (ops.poolIOV s.mgr pool)).addRef c) c).name id pat], ?_⟩
    simp [h]

/-- What the loop over the conditions of one entry adds to the trace and to the count. -/
theorem foldl_importCondition_trace {M P : Type} (ops : ManagerOps M P) (pool : P)
    (id pat : String) (l : List Condition) (s : ImportState M) :
    ∃ t : List Event,
      (l.foldl (importCondition ops pool id pat) s).trace = s.trace ++ t
      ∧ t.filterMap Event.registered? = []
      ∧ t.filterMap Event.attempt? = l
      ∧ (l.foldl (importCondition ops pool id pat) s).count = s.count + t.countP Event.isInserted
      ∧ t.countP Event.isWarning + t.countP Event.isInserted = l.length
      ∧ (∀ e ∈ t, e.isWarning = true ∨ ∃ c ok, e = Event.insert c ok) := by
  induction l generalizing s with
  | nil => exact ⟨[], by simp⟩
  | cons c l ih =>
    obtain ⟨ok, w, h1, h2, h3, h4, h5⟩ := importCondition_trace ops pool id pat s c
    obtain ⟨t, g1, g2, g3, g4, g5, g6⟩ := ih (importCondition ops pool id pat s c)
    have hw1 : w.filterMap Event.registered? = [] := by
      rw [List.filterMap_eq_nil_iff]
      intro e he
      obtain ⟨n, rfl⟩ := h2 e he
      rfl
    have hw2 : w.filterMap Event.attempt? = [] := by
      rw [List.filterMap_eq_nil_iff]
      intro e he
      obtain ⟨n, rfl⟩ := h2 e he
      rfl
    have hw3 : w.countP Event.isInserted = 0 := by
      rw [List.countP_eq_zero]
      intro e he
      obtain ⟨n, rfl⟩ := h2 e he
      simp [Event.isInserted]
    have hw4 : w.countP Event.isWarning = w.length := by
      rw [List.countP_eq_length]
      intro e he
      obtain ⟨n, rfl⟩ := h2 e he
      rfl
    refine ⟨Event.insert c ok :: w ++ t, ?_, ?_, ?_, ?_, ?_, ?_⟩
    · simp [List.foldl_cons, g1, h1]
    · simp [List.filterMap_append, List.filterMap_cons, Event.registered?, hw1, g2]
    · simp [List.filterMap_append, List.filterMap_cons, Event.attempt?, hw2, g3]
    · rw [List.foldl_cons, g4, h5]
      cases ok
      · simp [List.countP_cons, List.countP_append, Event.isInserted, hw3]
      · simp [List.countP_cons, List.countP_append, Event.isInserted, hw3]
        omega
    · cases ok
      · have := h4 rfl
        simp [List.countP_cons, List.countP_append, Event.isInserted, Event.isWarning, hw3, hw4, this]
        omega
      · have := h3 rfl
        subst this
        simp [List.countP_cons, Event.isInserted, Event.isWarning]
        omega
    · intro e he
      simp only [List.cons_append, List.mem_cons, List.mem_append] at he
      rcases he with rfl | he | he
      · exact Or.inr ⟨c, ok, rfl⟩
      · obtain ⟨n, rfl⟩ := h2 e he
        exact Or.inl rfl
      · exact g6 e he

theorem processEntry_none {M P : Type} (ops : ManagerOps M P) (id pat : String)
    (s : ImportState M) (e : iov_key_type × pool_type)
    (h : (ops.registerIOVType s.mgr e.1.2.1.2 e.1.2.1.1).2.2 = none) :
    processEntry ops id pat s e
      = { count := s.count, mgr := (ops.registerIOVType s.mgr e.1.2.1.2 e.1.2.1.1).1,
          heap := s.heap,
          trace := s.trace ++ [Event.registerIOVType e.1.2.1.2 e.1.2.1.1 none] } := by
  simp only [processEntry, h]

theorem processEntry_some {M P : Type} (ops : ManagerOps M P) (id pat : String)
    (s : ImportState M) (e : iov_key_type × pool_type) (typ : IOVType)
    (h : (ops.registerIOVType s.mgr e.1.2.1.2 e.1.2.1.1).2.2 = some typ) :
    processEntry ops id pat s e
      = e.2.foldl
          (importCondition ops
            (ops.registerIOV (ops.registerIOVType s.mgr e.1.2.1.2 e.1.2.1.1).1 typ e.1.2.2).2
            id pat)
          { count := s.count,
            mgr := (ops.registerIOV (ops.registerIOVType s.mgr e.1.2.1.2 e.1.2.1.1).1 typ e.1.2.2).1,
            heap := s.heap,
            trace := s.trace ++ [Event.registerIOVType e.1.2.1.2 e.1.2.1.1 (some typ)]
                       ++ [Event.registerIOV typ e.1.2.2] } := by
  simp only [processEntry, h]

theorem processEntry_trace {M P : Type} (ops : ManagerOps M P) (id pat : String)
    (s : ImportState M) (e : iov_key_type × pool_type) :
    ∃ t : List Event,
      (processEntry ops id pat s e).trace
        = s.trace ++ Event.registerIOVType e.1.2.1.2 e.1.2.1.1
            (ops.registerIOVType s.mgr e.1.2.1.2 e.1.2.1.1).2.2 :: t
      ∧ t.filterMap Event.registered? = []
      ∧ t.filterMap Event.attempt?
          = (if (ops.registerIOVType s.mgr e.1.2.1.2 e.1.2.1.1).2.2.isSome then e.2 else [])
      ∧ (processEntry ops id pat s e).count = s.count + t.countP Event.isInserted
      ∧ t.countP Event.isWarning + t.countP Event.isInserted
          = (t.filterMap Event.attempt?).length := by
  cases h : (ops.registerIOVType s.mgr e.1.2.1.2 e.1.2.1.1).2.2 with
  | none =>
    rw [processEntry_none ops id pat s e h]
    exact ⟨[], by simp⟩
  | some typ =>
    rw [processEntry_some ops id pat s e typ h]
    obtain ⟨t, g1, g2, g3, g4, g5, _⟩ := foldl_importCondition_trace ops
      (ops.registerIOV (ops.registerIOVType s.mgr e.1.2.1.2 e.1.2.1.1).1 typ e.1.2.2).2 id pat e.2
      { count := s.count,
        mgr := (ops.registerIOV (ops.registerIOVType s.mgr e.1.2.1.2 e.1.2.1.1).1 typ e.1.2.2).1,
        heap := s.heap,
        trace := s.trace ++ [Event.registerIOVType e.1.2.1.2 e.1.2.1.1 (some typ)]
                   ++ [Event.registerIOV typ e.1.2.2] }
    refine ⟨Event.registerIOV typ e.1.2.2 :: t, ?_, ?_, ?_, ?_, ?_⟩
    · rw [g1]; simp
    · simp [List.filterMap_cons, Event.registered?, g2]
    · simp [List.filterMap_cons, Event.attempt?, g3]
    · rw [g4]; simp [List.countP_cons, Event.isInserted]
    · simp [List.filterMap_cons, Event.attempt?, List.countP_cons, Event.isInserted,
        Event.isWarning, g5, g3]

/-- The calls made while the selected entries `l` are loaded. -/
theorem foldl_processEntry_trace {M P : Type} (ops : ManagerOps M P) (id pat : String)
    (l : persistent_type) (s : ImportState M) :
    ∃ t : List Event,
      (l.foldl (processEntry ops id pat) s).trace = s.trace ++ t
      ∧ (t.filterMap Event.registered?).map Prod.fst = l.map (fun e => (e.1.2.1.2, e.1.2.1.1))
      ∧ t.filterMap Event.attempt?
          = (l.zip (t.filterMap Event.registered?)).flatMap
              (fun x => if x.2.2.isSome then x.1.2 else [])
      ∧ (l.foldl (processEntry ops id pat) s).count = s.count + t.countP Event.isInserted
      ∧ t.countP Event.isWarning + t.countP Event.isInserted
          = (t.filterMap Event.attempt?).length := by
  induction l generalizing s with
  | nil => exact ⟨[], by simp⟩
  | cons e l ih =>
    obtain ⟨t1, h1, h2, h3, h4, h5⟩ := processEntry_trace ops id pat s e
    obtain ⟨t2, g1, g2, g3, g4, g5⟩ := ih (processEntry ops id pat s e)
    refine ⟨Event.registerIOVType e.1.2.1.2 e.1.2.1.1
              (ops.registerIOVType s.mgr e.1.2.1.2 e.1.2.1.1).2.2 :: t1 ++ t2, ?_, ?_, ?_, ?_, ?_⟩
    · simp [List.foldl_cons, g1, h1]
    · simp [List.filterMap_cons, List.filterMap_append, Event.registered?, h2, g2]
    · simp only [List.cons_append, List.filterMap_cons, List.filterMap_append, Event.registered?,
        Event.attempt?, h2, h3, g3, List.nil_append, List.zip_cons_cons, List.flatMap_cons]
    · rw [List.foldl_cons, g4, h4]
      simp [List.countP_cons, List.countP_append, Event.isInserted]
      omega
    · simp only [List.cons_append, List.filterMap_cons, List.filterMap_append, Event.attempt?,
        List.countP_cons, List.countP_append, Event.isInserted, Event.isWarning, List.length_append]
      simp
      omega

/-! ## Capture and release -/

theorem modifyBack_concat {α : Type} (v : List α) (a : α) (f : α → α) :
    modifyBack (v ++ [a]) f = v ++ [f a] := by
  simp [modifyBack]

theorem fillBack_concat (v : persistent_type) (e : iov_key_type × pool_type)
    (identifier : String) (iov : IOV) (key : IOVKey) (collect : pool_type → pool_type) :
    fillBack (v ++ [e]) identifier iov key collect
      = v ++ [((identifier, ((iov.iovType.name, iov.type), key)), collect e.2)] := by
  simp [fillBack, modifyBack_concat]

theorem backEntries_concat (v : persistent_type) (e : iov_key_type × pool_type) :
    backEntries (v ++ [e]) = e.2 := by
  simp [backEntries]

theorem select_all_nil (pool : ConditionsPool) : pool.select_all [] = pool.members := by
  simp [ConditionsPool.select_all]

theorem scan_process (pool : UserPool) (out : pool_type) :
    pool.scan Scanner.process out = out ++ pool.conditions := by
  unfold UserPool.scan
  generalize pool.conditions = l
  induction l generalizing out with
  | nil => simp
  | cons c l ih =>
    rw [List.foldl_cons, ih]
    simp [Scanner.process]

theorem addRefAll_apply (ent : pool_type) (heap : Heap) (c : Condition) :
    addRefAll ent heap c
      = { heap c with refCount := (heap c).refCount + (ent.count c : Int) } := by
  unfold addRefAll
  induction ent generalizing heap with
  | nil => simp
  | cons x l ih =>
    rw [List.foldl_cons, ih]
    by_cases h : x = c
    · subst h
      simp [Heap.addRef, ConditionObject.addRef]
      ring
    · have h' : c ≠ x := fun e => h e.symm
      simp [Heap.addRef, Function.update_noteq h', List.count_cons, h]

theorem releaseAll_append (a b : pool_type) (heap : Heap) :
    releaseAll (a ++ b) heap = releaseAll b (releaseAll a heap) := by
  simp [releaseAll, List.foldl_append]

theorem releaseAll_refCount (ent : pool_type) (heap : Heap) (c : Condition) :
    (releaseAll ent heap c).refCount = (heap c).refCount - (ent.count c : Int)
    ∧ (releaseAll ent heap c).name = (heap c).name
    ∧ (releaseAll ent heap c).hash = (heap c).hash
    ∧ (releaseAll ent heap c).iov = (heap c).iov := by
  unfold releaseAll
  induction ent generalizing heap with
  | nil => simp
  | cons x l ih =>
    rw [List.foldl_cons]
    obtain ⟨h1, h2, h3, h4⟩ := ih (heap.release x)
    rw [h1, h2, h3, h4]
    by_cases h : x = c
    · subst h
      simp [Heap.release, ConditionObject.release]
      ring
    · have h' : c ≠ x := fun e => h e.symm
      simp [Heap.release, Function.update_noteq h', List.count_cons, h]

theorem releaseAll_destroyed (ent : pool_type) (heap : Heap) (c : Condition)
    (h : (ent.count c : Int) < (heap c).refCount) :
    (releaseAll ent heap c).destroyed = (heap c).destroyed := by
  unfold releaseAll
  induction ent generalizing heap with
  | nil => simp
  | cons x l ih =>
    rw [List.foldl_cons]
    by_cases hx : x = c
    · subst hx
      simp only [List.count_cons_self, Nat.cast_add, Nat.cast_one] at h
      rw [ih]
      · have : ¬ ((heap x).refCount - 1 = 0) := by omega
        simp [Heap.release, ConditionObject.release, this]
      · simp [Heap.release, ConditionObject.release]
        omega
    · have h' : c ≠ x := fun e => hx e.symm
      have hc : (x :: l).count c = l.count c := by simp [List.count_cons, hx]
      rw [hc] at h
      rw [ih]
      · simp [Heap.release, Function.update_noteq h']
      · simpa [Heap.release, Function.update_noteq h'] using h

theorem foldl_clearEntry_heap (pool : persistent_type) (s : persistent_type × Heap) :
    (pool.foldl clearEntry s).2 = releaseAll (allConditions pool) s.2 := by
  induction pool generalizing s with
  | nil => simp [allConditions, releaseAll]
  | cons p l ih =>
    rw [List.foldl_cons, ih]
    simp [clearEntry, allConditions, releaseAll_append]

theorem clear_eq (self : ConditionsRootPersistency) (heap : Heap) :
    self.clear heap
      = ({ conditionPools := [], userPools := [], iovPools := [] },
         releaseAll (allConditions self.conditionPools ++ allConditions self.userPools
            ++ allConditions self.iovPools) heap) := by
  simp [ConditionsRootPersistency.clear, ConditionsRootPersistency._clear,
    foldl_clearEntry_heap, releaseAll_append]

theorem add_ConditionsPool_eq (self : ConditionsRootPersistency) (heap : Heap)
    (identifier : String) (pool : ConditionsPool) :
    self.add_ConditionsPool heap identifier pool
      = { count := pool.members.length
          self := { self with conditionPools := self.conditionPools ++
            [((identifier, ((pool.iov.iovType.name, pool.iov.type), pool.iov.keyData)),
              pool.members)] }
          heap := addRefAll pool.members heap } := by
  simp [ConditionsRootPersistency.add_ConditionsPool, fillBack_concat, backEntries_concat,
    emptyEntry, select_all_nil, IOV.key]

theorem add_UserPool_eq (self : ConditionsRootPersistency) (heap : Heap)
    (identifier : String) (pool : UserPool) :
    self.add_UserPool heap identifier pool
      = { count := pool.conditions.length
          self := { self with userPools := self.userPools ++
            [((identifier, ((pool.validityIOV.iovType.name, pool.validityIOV.type),
                pool.validityIOV.keyData)), pool.conditions)] }
          heap := addRefAll pool.conditions heap } := by
  simp [ConditionsRootPersistency.add_UserPool, fillBack_concat, backEntries_concat,
    emptyEntry, scan_process, IOV.key, UserPool.validity]

theorem addRefAll_append (a b : pool_type) (heap : Heap) :
    addRefAll (a ++ b) heap = addRefAll b (addRefAll a heap) := by
  simp [addRefAll, List.foldl_append]

/-- The catalog entry captured from one element of a `ConditionsIOVPool`. -/
theorem foldl_addElement (identifier : String) (elements : List (IOVKey × ConditionsPool))
    (s : Nat × persistent_type × Heap) :
    elements.foldl (addElement identifier) s
      = (s.1 + (elements.map (fun p => p.2.members.length)).sum,
         s.2.1 ++ elements.map (fun p =>
            ((identifier, ((p.2.iov.iovType.name, p.2.iov.type), p.1)), p.2.members)),
         addRefAll (elements.flatMap (fun p => p.2.members)) s.2.2) := by
  induction elements generalizing s with
  | nil => simp [addRefAll]
  | cons p l ih =>
    rw [List.foldl_cons, ih]
    simp [addElement, fillBack_concat, backEntries_concat, emptyEntry, select_all_nil,
      addRefAll_append, Nat.add_assoc]

theorem add_ConditionsIOVPool_eq (self : ConditionsRootPersistency) (heap : Heap)
    (identifier : String) (pool : ConditionsIOVPool) :
    self.add_ConditionsIOVPool heap identifier pool
      = { count := (pool.elements.map (fun p => p.2.members.length)).sum
          self := { self with iovPools := self.iovPools ++ pool.elements.map (fun p =>
            ((identifier, ((p.2.iov.iovType.name, p.2.iov.type), p.1)), p.2.members)) }
          heap := addRefAll (pool.elements.flatMap (fun p => p.2.members)) heap } := by
  simp [ConditionsRootPersistency.add_ConditionsIOVPool, foldl_addElement]

theorem length_flatMap_members (l : List (IOVKey × ConditionsPool)) :
    (l.flatMap (fun p => p.2.members)).length = (l.map (fun p => p.2.members.length)).sum := by
  induction l with
  | nil => rfl
  | cons p l ih => simp [ih]

theorem sum_count_dedup_int (l : List Condition) :
    (l.dedup.map (fun c => (l.count c : Int))).sum = (l.length : Int) := by
  have h := List.sum_map_count_dedup_eq_length l
  have h2 := congrArg (fun n : Nat => (n : Int)) h
  simp only [Nat.cast_list_sum, List.map_map] at h2
  exact h2

/-- The reference counts after the members `ent` were captured. -/
theorem addRefAll_spec (ent : pool_type) (heap : Heap) :
    (∀ c, (addRefAll ent heap c).refCount = (heap c).refCount + (ent.count c : Int))
    ∧ (ent.dedup.map (fun c => (addRefAll ent heap c).refCount - (heap c).refCount)).sum
        = (ent.length : Int)
    ∧ (∀ c, c ∉ ent → addRefAll ent heap c = heap c) := by
  refine ⟨?_, ?_, ?_⟩
  · intro c; rw [addRefAll_apply]
  · rw [← sum_count_dedup_int]
    congr 1
    apply List.map_congr_left
    intro c _
    rw [addRefAll_apply]
    simp
  · intro c hc
    rw [addRefAll_apply, List.count_eq_zero_of_not_mem hc]
    simp

theorem allConditions_append (a b : persistent_type) :
    allConditions (a ++ b) = allConditions a ++ allConditions b := by
  simp [allConditions]

theorem captured_run (base : Heap) (s : ConditionsRootPersistency × Heap) (a : AddCall)
    (h : Captured base s) : Captured base (AddCall.run s a) := by
  intro c
  cases a with
  | conditionsPool identifier pool =>
    simp only [AddCall.run, add_ConditionsPool_eq, addRefAll_apply, h c,
      ConditionsRootPersistency.occurrences, allConditions_append, List.count_append]
    simp [allConditions]
    ring
  | conditionsIOVPool identifier pool =>
    simp only [AddCall.run, add_ConditionsIOVPool_eq, addRefAll_apply, h c,
      ConditionsRootPersistency.occurrences, allConditions_append, List.count_append]
    simp [allConditions, List.flatMap_map]
    ring
  | userPool identifier pool =>
    simp only [AddCall.run, add_UserPool_eq, addRefAll_apply, h c,
      ConditionsRootPersistency.occurrences, allConditions_append, List.count_append]
    simp [allConditions]
    ring

theorem captured_foldl (base : Heap) (calls : List AddCall)
    (s : ConditionsRootPersistency × Heap) (h : Captured base s) :
    Captured base (calls.foldl AddCall.run s) := by
  induction calls generalizing s with
  | nil => exact h
  | cons a l ih => exact ih _ (captured_run base s a h)

theorem captured_runAdds (calls : List AddCall) (heap : Heap) :
    Captured heap (runAdds calls heap) := by
  apply captured_foldl
  intro c
  simp [ConditionsRootPersistency.empty, ConditionsRootPersistency.occurrences, allConditions]

theorem clear_refCount (self : ConditionsRootPersistency) (heap : Heap) (c : Condition) :
    ((self.clear heap).2 c).refCount = (heap c).refCount - (self.occurrences c : Int) := by
  rw [clear_eq]
  simp only [(releaseAll_refCount _ heap c).1, ConditionsRootPersistency.occurrences,
    List.count_append, Nat.cast_add]

theorem clear_fields (self : ConditionsRootPersistency) (heap : Heap) (c : Condition) :
    ((self.clear heap).2 c).name = (heap c).name
    ∧ ((self.clear heap).2 c).hash = (heap c).hash
    ∧ ((self.clear heap).2 c).iov = (heap c).iov := by
  rw [clear_eq]
  exact (releaseAll_refCount _ heap c).2

theorem clear_destroyed (self : ConditionsRootPersistency) (heap : Heap) (c : Condition)
    (h : (self.occurrences c : Int) < (heap c).refCount) :
    ((self.clear heap).2 c).destroyed = (heap c).destroyed := by
  rw [clear_eq]
  apply releaseAll_destroyed
  simp only [ConditionsRootPersistency.occurrences, Nat.cast_add] at h
  simp only [List.count_append, Nat.cast_add]
  exact h

theorem ConditionObject.eq_of_fields (a b : ConditionObject) (h1 : a.name = b.name)
    (h2 : a.hash = b.hash) (h3 : a.iov = b.iov) (h4 : a.refCount = b.refCount)
    (h5 : a.destroyed = b.destroyed) : a = b := by
  cases a; cases b; simp_all

/-! ## Import into the manager of the specification -/

/-- The heap after the two heap statements of the loop body of `_import`. -/
theorem import_heap_hash (heap : Heap) (c : Condition) (iov : IOV) (x : Condition) :
    (((heap.setIOV c iov).addRef c) x).hash = (heap x).hash
    ∧ (((heap.setIOV c iov).addRef c) x).name = (heap x).name
    ∧ (((heap.setIOV c iov).addRef c) x).destroyed = (heap x).destroyed
    ∧ (((heap.setIOV c iov).addRef c) x).refCount
        = (heap x).refCount + (if x = c then 1 else 0) := by
  by_cases h : x = c
  · subst h
    simp [Heap.setIOV, Heap.addRef, ConditionObject.addRef]
  · simp [Heap.setIOV, Heap.addRef, ConditionObject.addRef, Function.update_noteq h, h]

theorem importCondition_heap {M P : Type} (ops : ManagerOps M P) (pool : P)
    (id pat : String) (s : ImportState M) (c : Condition) :
    (importCondition ops pool id pat s c).heap
      = (s.heap.setIOV c (ops.poolIOV s.mgr pool)).addRef c := by
  simp only [importCondition]
  split <;> rfl

theorem importCondition_spec_dup (iov : IOV) (id pat : String)
    (s : ImportState ManagerState) (c : Condition) (p : ConditionsPool)
    (hp : s.mgr.pools iov = some p)
    (hd : ∃ x ∈ p.members, (s.heap x).hash = (s.heap c).hash) :
    (importCondition specManager iov id pat s c).mgr = s.mgr
    ∧ (importCondition specManager iov id pat s c).count = s.count
    ∧ (importCondition specManager iov id pat s c).trace
        = s.trace ++ [Event.insert c false, Event.warning (s.heap c).name id pat] := by
  have hany : (p.members.any (fun m =>
      ((((s.heap.setIOV c (specManager.poolIOV s.mgr iov)).addRef c) m).hash
        == (((s.heap.setIOV c (specManager.poolIOV s.mgr iov)).addRef c) c).hash))) = true := by
    rw [List.any_eq_true]
    obtain ⟨x, hx, hxc⟩ := hd
    refine ⟨x, hx, ?_⟩
    simp [(import_heap_hash s.heap c _ x).1, (import_heap_hash s.heap c _ c).1, hxc]
  have hins : (specManager.insert s.mgr
      ((s.heap.setIOV c (specManager.poolIOV s.mgr iov)).addRef c) iov c) = (s.mgr, false) := by
    simp only [specManager, ManagerState.insert, hp, ConditionsPool.insert]
    simp only [specManager] at hany
    simp [hany]
  unfold importCondition
  simp only [hins]
  simp [(import_heap_hash s.heap c _ c).2.1]

theorem importCondition_spec_new (iov : IOV) (id pat : String)
    (s : ImportState ManagerState) (c : Condition) (p : ConditionsPool)
    (hp : s.mgr.pools iov = some p)
    (hd : ∀ x ∈ p.members, (s.heap x).hash ≠ (s.heap c).hash) :
    (importCondition specManager iov id pat s c).mgr
      = ManagerState.mk s.mgr.iovTypes
          (Function.update s.mgr.pools iov (some (ConditionsPool.mk p.iov (p.members ++ [c]))))
    ∧ (importCondition specManager iov id pat s c).count = s.count + 1
    ∧ (importCondition specManager iov id pat s c).trace = s.trace ++ [Event.insert c true] := by
  have hany : (p.members.any (fun m =>
      ((((s.heap.setIOV c (specManager.poolIOV s.mgr iov)).addRef c) m).hash
        == (((s.heap.setIOV c (specManager.poolIOV s.mgr iov)).addRef c) c).hash))) = false := by
    rw [List.any_eq_false]
    intro x hx
    simp [(import_heap_hash s.heap c _ x).1, (import_heap_hash s.heap c _ c).1, hd x hx]
  have hins : (specManager.insert s.mgr
      ((s.heap.setIOV c (specManager.poolIOV s.mgr iov)).addRef c) iov c)
      = (ManagerState.mk s.mgr.iovTypes
          (Function.update s.mgr.pools iov (some (ConditionsPool.mk p.iov (p.members ++ [c])))),
         true) := by
    simp only [specManager, ManagerState.insert, hp, ConditionsPool.insert]
    simp only [specManager] at hany
    simp [hany]
  unfold importCondition
  simp only [hins]
  simp

theorem ManagerState.Grows.refl (m : ManagerState) : m.Grows m :=
  ⟨fun _ _ h => h, fun _ p h => ⟨p, h, fun _ hx => hx⟩⟩

theorem ManagerState.Grows.trans {a b c : ManagerState} (h1 : a.Grows b) (h2 : b.Grows c) :
    a.Grows c := by
  refine ⟨fun n t h => h2.1 n t (h1.1 n t h), ?_⟩
  intro i p hp
  obtain ⟨p1, hp1, hm1⟩ := h1.2 i p hp
  obtain ⟨p2, hp2, hm2⟩ := h2.2 i p1 hp1
  exact ⟨p2, hp2, fun x hx => hm2 x (hm1 x hx)⟩

theorem Covered.mono {hf : Condition → Nat} {m m' : ManagerState}
    {e : iov_key_type × pool_type} (hg : m.Grows m') (h : Covered hf m e) :
    Covered hf m' e := by
  obtain ⟨t, ht, p, hp, hc⟩ := h
  obtain ⟨p', hp', hm⟩ := hg.2 _ p hp
  refine ⟨t, hg.1 _ t ht, p', hp', ?_⟩
  intro c hcm
  obtain ⟨x, hx, hxc⟩ := hc c hcm
  exact ⟨x, hm x hx, hxc⟩

/-- The loop over an entry whose conditions are all in the pool already. -/
theorem foldl_importCondition_all_dup (hf : Condition → Nat) (iov : IOV) (id pat : String)
    (p : ConditionsPool) (l : List Condition) (s : ImportState ManagerState)
    (hp : s.mgr.pools iov = some p) (hh : ∀ x, (s.heap x).hash = hf x)
    (hd : ∀ c ∈ l, ∃ x ∈ p.members, hf x = hf c) :
    (l.foldl (importCondition specManager iov id pat) s).mgr = s.mgr
    ∧ (l.foldl (importCondition specManager iov id pat) s).count = s.count
    ∧ (∀ x, ((l.foldl (importCondition specManager iov id pat) s).heap x).hash = hf x) := by
  induction l generalizing s with
  | nil => exact ⟨rfl, rfl, hh⟩
  | cons c l ih =>
    rw [List.foldl_cons]
    have hdc : ∃ x ∈ p.members, (s.heap x).hash = (s.heap c).hash := by
      obtain ⟨x, hx, hxc⟩ := hd c (List.mem_cons_self c l)
      exact ⟨x, hx, by rw [hh, hh, hxc]⟩
    obtain ⟨h1, h2, -⟩ := importCondition_spec_dup iov id pat s c p hp hdc
    have hh' : ∀ x, ((importCondition specManager iov id pat s c).heap x).hash = hf x := by
      intro x
      rw [importCondition_heap, (import_heap_hash s.heap c _ x).1, hh]
    obtain ⟨g1, g2, g3⟩ := ih (importCondition specManager iov id pat s c)
      (by rw [h1]; exact hp) hh' (fun c' hc' => hd c' (List.mem_cons_of_mem c hc'))
    exact ⟨by rw [g1, h1], by rw [g2, h2], g3⟩

/-- One step of the loop over an entry, on the manager of the specification. -/
theorem importCondition_spec_step (hf : Condition → Nat) (iov : IOV) (id pat : String)
    (p : ConditionsPool) (s : ImportState ManagerState) (c : Condition)
    (hp : s.mgr.pools iov = some p) (hh : ∀ x, (s.heap x).hash = hf x) :
    ∃ p', (importCondition specManager iov id pat s c).mgr.pools iov = some p'
      ∧ (∀ x ∈ p.members, x ∈ p'.members)
      ∧ (∃ x ∈ p'.members, hf x = hf c)
      ∧ s.mgr.Grows (importCondition specManager iov id pat s c).mgr
      ∧ (∀ x, ((importCondition specManager iov id pat s c).heap x).hash = hf x) := by
  have hh' : ∀ x, ((importCondition specManager iov id pat s c).heap x).hash = hf x := by
    intro x
    rw [importCondition_heap, (import_heap_hash s.heap c _ x).1, hh]
  by_cases hd : ∃ x ∈ p.members, (s.heap x).hash = (s.heap c).hash
  · obtain ⟨h1, -, -⟩ := importCondition_spec_dup iov id pat s c p hp hd
    rw [h1]
    obtain ⟨x, hx, hxc⟩ := hd
    refine ⟨p, hp, fun _ h => h, ⟨x, hx, ?_⟩, ManagerState.Grows.refl _, hh'⟩
    rw [← hh, ← hh, hxc]
  · have hd' : ∀ x ∈ p.members, (s.heap x).hash ≠ (s.heap c).hash := by
      intro x hx hxc
      exact hd ⟨x, hx, hxc⟩
    obtain ⟨h1, -, -⟩ := importCondition_spec_new iov id pat s c p hp hd'
    rw [h1]
    refine ⟨ConditionsPool.mk p.iov (p.members ++ [c]), by simp, ?_, ⟨c, by simp, rfl⟩, ?_, hh'⟩
    · intro x hx
      simp [hx]
    · refine ⟨fun _ _ h => h, ?_⟩
      intro i q hq
      by_cases hi : i = iov
      · subst hi
        rw [hp] at hq
        cases hq
        exact ⟨ConditionsPool.mk p.iov (p.members ++ [c]), by simp,
          fun x hx => by simp [hx]⟩
      · exact ⟨q, by simp [Function.update_noteq hi, hq], fun _ h => h⟩

/-- The loop over the conditions of an entry, on the manager of the specification. -/
theorem foldl_importCondition_spec (hf : Condition → Nat) (iov : IOV) (id pat : String)
    (l : List Condition) (p : ConditionsPool) (s : ImportState ManagerState)
    (hp : s.mgr.pools iov = some p) (hh : ∀ x, (s.heap x).hash = hf x) :
    ∃ p', (l.foldl (importCondition specManager iov id pat) s).mgr.pools iov = some p'
      ∧ (∀ x ∈ p.members, x ∈ p'.members)
      ∧ (∀ c ∈ l, ∃ x ∈ p'.members, hf x = hf c)
      ∧ s.mgr.Grows (l.foldl (importCondition specManager iov id pat) s).mgr
      ∧ (∀ x, ((l.foldl (importCondition specManager iov id pat) s).heap x).hash = hf x) := by
  induction l generalizing s p with
  | nil => exact ⟨p, hp, fun _ h => h, by simp, ManagerState.Grows.refl _, hh⟩
  | cons c l ih =>
    rw [List.foldl_cons]
    obtain ⟨p1, h1, h2, h3, h4, h5⟩ := importCondition_spec_step hf iov id pat p s c hp hh
    obtain ⟨p2, g1, g2, g3, g4, g5⟩ := ih p1 (importCondition specManager iov id pat s c) h1 h5
    refine ⟨p2, g1, fun x hx => g2 x (h2 x hx), ?_, h4.trans g4, g5⟩
    intro c' hc'
    rcases List.mem_cons.1 hc' with rfl | hc'
    · obtain ⟨x, hx, hxc⟩ := h3
      exact ⟨x, g2 x hx, hxc⟩
    · exact g3 c' hc'

theorem registerIOVType_known (m : ManagerState) (type : Int) (name : String) (t : IOVType)
    (h : m.iovTypes name = some t) :
    m.registerIOVType type name = (m, (false, some t)) := by
  simp [ManagerState.registerIOVType, h]

theorem registerIOVType_spec (m : ManagerState) (type : Int) (name : String) :
    ∃ t, (m.registerIOVType type name).2.2 = some t
      ∧ (m.registerIOVType type name).1.iovTypes name = some t
      ∧ m.Grows (m.registerIOVType type name).1 := by
  cases h : m.iovTypes name with
  | some t =>
    rw [registerIOVType_known m type name t h]
    exact ⟨t, rfl, h, ManagerState.Grows.refl m⟩
  | none =>
    refine ⟨{ name := name, type := type }, ?_, ?_, ?_, ?_⟩
    · simp [ManagerState.registerIOVType, h]
    · simp [ManagerState.registerIOVType, h]
    · intro n t hn
      have hne : n ≠ name := by
        intro e
        rw [e, h] at hn
        cases hn
      simp [ManagerState.registerIOVType, h, Function.update_noteq hne, hn]
    · intro i p hp
      exact ⟨p, by simp [ManagerState.registerIOVType, h, hp], fun _ hx => hx⟩

theorem registerIOV_known (m : ManagerState) (typ : IOVType) (key : IOVKey)
    (p : ConditionsPool)
    (h : m.pools { iovType := typ, type := typ.type, keyData := key } = some p) :
    m.registerIOV typ key = (m, { iovType := typ, type := typ.type, keyData := key }) := by
  simp [ManagerState.registerIOV, h]

theorem registerIOV_spec (m : ManagerState) (typ : IOVType) (key : IOVKey) :
    (m.registerIOV typ key).2 = { iovType := typ, type := typ.type, keyData := key }
    ∧ (∃ p, (m.registerIOV typ key).1.pools
          { iovType := typ, type := typ.type, keyData := key } = some p
        ∧ (m.pools { iovType := typ, type := typ.type, keyData := key } = none →
            p = { iov := { iovType := typ, type := typ.type, keyData := key }, members := [] }))
    ∧ m.Grows (m.registerIOV typ key).1
    ∧ (∀ j, j ≠ { iovType := typ, type := typ.type, keyData := key } →
          (m.registerIOV typ key).1.pools j = m.pools j) := by
  cases h : m.pools { iovType := typ, type := typ.type, keyData := key } with
  | some p =>
    rw [registerIOV_known m typ key p h]
    exact ⟨rfl, ⟨p, h, fun e => by simp at e⟩, ManagerState.Grows.refl m, fun _ _ => rfl⟩
  | none =>
    refine ⟨?_, ⟨_, ?_, fun _ => rfl⟩, ⟨?_, ?_⟩, ?_⟩
    · simp [ManagerState.registerIOV, h]
    · simp [ManagerState.registerIOV, h]
    · intro n t hn
      simp [ManagerState.registerIOV, h, hn]
    · intro i p hp
      have hne : i ≠ { iovType := typ, type := typ.type, keyData := key } := by
        intro e
        rw [e, h] at hp
        cases hp
      exact ⟨p, by simp [ManagerState.registerIOV, h, Function.update_noteq hne, hp],
        fun _ hx => hx⟩
    · intro j hj
      simp [ManagerState.registerIOV, h, Function.update_noteq hj]

/-- Loading one entry into the manager of the specification leaves the entry covered. -/
theorem processEntry_spec_covers (hf : Condition → Nat) (id pat : String)
    (s : ImportState ManagerState) (e : iov_key_type × pool_type)
    (hh : ∀ x, (s.heap x).hash = hf x) :
    Covered hf (processEntry specManager id pat s e).mgr e
    ∧ s.mgr.Grows (processEntry specManager id pat s e).mgr
    ∧ (∀ x, ((processEntry specManager id pat s e).heap x).hash = hf x) := by
  obtain ⟨t, ht1, ht2, ht3⟩ := registerIOVType_spec s.mgr e.1.2.1.2 e.1.2.1.1
  have ht1' : (specManager.registerIOVType s.mgr e.1.2.1.2 e.1.2.1.1).2.2 = some t := ht1
  rw [processEntry_some specManager id pat s e t ht1']
  obtain ⟨r1, ⟨p, hp, -⟩, r3, -⟩ :=
    registerIOV_spec (s.mgr.registerIOVType e.1.2.1.2 e.1.2.1.1).1 t e.1.2.2
  have hreg : specManager.registerIOV (specManager.registerIOVType s.mgr e.1.2.1.2 e.1.2.1.1).1
      t e.1.2.2 = (s.mgr.registerIOVType e.1.2.1.2 e.1.2.1.1).1.registerIOV t e.1.2.2 := rfl
  rw [hreg, r1]
  obtain ⟨p', g1, -, g3, g4, g5⟩ := foldl_importCondition_spec hf
    { iovType := t, type := t.type, keyData := e.1.2.2 } id pat e.2 p
    { count := s.count,
      mgr := ((s.mgr.registerIOVType e.1.2.1.2 e.1.2.1.1).1.registerIOV t e.1.2.2).1,
      heap := s.heap,
      trace := s.trace ++ [Event.registerIOVType e.1.2.1.2 e.1.2.1.1 (some t)]
                 ++ [Event.registerIOV t e.1.2.2] } hp hh
  refine ⟨⟨t, ?_, p', g1, g3⟩, (ht3.trans r3).trans g4, g5⟩
  exact (r3.trans g4).1 _ t ht2

/-- Loading an entry that is covered already changes neither the manager nor the count. -/
theorem processEntry_spec_covered (hf : Condition → Nat) (id pat : String)
    (s : ImportState ManagerState) (e : iov_key_type × pool_type)
    (hh : ∀ x, (s.heap x).hash = hf x) (hc : Covered hf s.mgr e) :
    (processEntry specManager id pat s e).mgr = s.mgr
    ∧ (processEntry specManager id pat s e).count = s.count
    ∧ (∀ x, ((processEntry specManager id pat s e).heap x).hash = hf x) := by
  obtain ⟨t, ht, p, hp, hd⟩ := hc
  have h1 : specManager.registerIOVType s.mgr e.1.2.1.2 e.1.2.1.1 = (s.mgr, (false, some t)) :=
    registerIOVType_known s.mgr _ _ t ht
  have h1' : (specManager.registerIOVType s.mgr e.1.2.1.2 e.1.2.1.1).2.2 = some t := by rw [h1]
  rw [processEntry_some specManager id pat s e t h1', h1]
  have h2 : specManager.registerIOV s.mgr t e.1.2.2
      = (s.mgr, { iovType := t, type := t.type, keyData := e.1.2.2 }) :=
    registerIOV_known s.mgr t e.1.2.2 p hp
  simp only [h2]
  exact foldl_importCondition_all_dup hf _ id pat p e.2
    { count := s.count, mgr := s.mgr, heap := s.heap,
      trace := s.trace ++ [Event.registerIOVType e.1.2.1.2 e.1.2.1.1 (some t)]
                 ++ [Event.registerIOV t e.1.2.2] } hp hh hd

theorem foldl_processEntry_spec_covers (hf : Condition → Nat) (id pat : String)
    (l : persistent_type) (s : ImportState ManagerState)
    (hh : ∀ x, (s.heap x).hash = hf x) :
    (∀ e ∈ l, Covered hf (l.foldl (processEntry specManager id pat) s).mgr e)
    ∧ s.mgr.Grows (l.foldl (processEntry specManager id pat) s).mgr
    ∧ (∀ x, ((l.foldl (processEntry specManager id pat) s).heap x).hash = hf x) := by
  induction l generalizing s with
  | nil => exact ⟨by simp, ManagerState.Grows.refl _, hh⟩
  | cons e l ih =>
    rw [List.foldl_cons]
    obtain ⟨h1, h2, h3⟩ := processEntry_spec_covers hf id pat s e hh
    obtain ⟨g1, g2, g3⟩ := ih (processEntry specManager id pat s e) h3
    refine ⟨?_, h2.trans g2, g3⟩
    intro e' he'
    rcases List.mem_cons.1 he' with rfl | he'
    · exact h1.mono g2
    · exact g1 e' he'

theorem foldl_processEntry_spec_covered (hf : Condition → Nat) (id pat : String)
    (l : persistent_type) (s : ImportState ManagerState)
    (hh : ∀ x, (s.heap x).hash = hf x) (hc : ∀ e ∈ l, Covered hf s.mgr e) :
    (l.foldl (processEntry specManager id pat) s).mgr = s.mgr
    ∧ (l.foldl (processEntry specManager id pat) s).count = s.count := by
  induction l generalizing s with
  | nil => exact ⟨rfl, rfl⟩
  | cons e l ih =>
    rw [List.foldl_cons]
    obtain ⟨h1, h2, h3⟩ := processEntry_spec_covered hf id pat s e hh
      (hc e (List.mem_cons_self e l))
    obtain ⟨g1, g2⟩ := ih (processEntry specManager id pat s e) h3
      (fun e' he' => by rw [h1]; exact hc e' (List.mem_cons_of_mem e he'))
    exact ⟨by rw [g1, h1], by rw [g2, h2]⟩

/-- On the manager of the specification every `registerIOVType` call yields a type. -/
theorem foldl_processEntry_spec_attempts (id pat : String) (l : persistent_type)
    (s : ImportState ManagerState) :
    ∃ t : List Event,
      (l.foldl (processEntry specManager id pat) s).trace = s.trace ++ t
      ∧ t.filterMap Event.attempt? = allConditions l
      ∧ (l.foldl (processEntry specManager id pat) s).count = s.count + t.countP Event.isInserted
      ∧ t.countP Event.isWarning + t.countP Event.isInserted = (allConditions l).length := by
  induction l generalizing s with
  | nil => exact ⟨[], by simp [allConditions]⟩
  | cons e l ih =>
    obtain ⟨t1, h1, -, h3, h4, h5⟩ := processEntry_trace specManager id pat s e
    obtain ⟨t2, g1, g2, g3, g4⟩ := ih (processEntry specManager id pat s e)
    obtain ⟨t, ht, -, -⟩ := registerIOVType_spec s.mgr e.1.2.1.2 e.1.2.1.1
    have ht' : (specManager.registerIOVType s.mgr e.1.2.1.2 e.1.2.1.1).2.2 = some t := ht
    rw [ht'] at h3
    simp only [Option.isSome_some, if_true] at h3
    rw [h3] at h5
    refine ⟨Event.registerIOVType e.1.2.1.2 e.1.2.1.1
              (specManager.registerIOVType s.mgr e.1.2.1.2 e.1.2.1.1).2.2 :: t1 ++ t2,
            ?_, ?_, ?_, ?_⟩
    · simp [List.foldl_cons, g1, h1]
    · simp [List.filterMap_cons, List.filterMap_append, Event.attempt?, h3, g2, allConditions]
    · rw [List.foldl_cons, g3, h4]
      simp [List.countP_cons, List.countP_append, Event.isInserted]
      omega
    · simp only [List.cons_append, List.countP_cons, List.countP_append, Event.isInserted,
        Event.isWarning]
      simp [allConditions] at g4 ⊢
      omega

/-- The loop over an entry none of whose hashes is in the pool or repeated. -/
theorem foldl_importCondition_all_new (hf : Condition → Nat) (iov : IOV) (id pat : String)
    (l : List Condition) (p : ConditionsPool) (s : ImportState ManagerState)
    (hp : s.mgr.pools iov = some p) (hh : ∀ x, (s.heap x).hash = hf x)
    (hn : (l.map hf).Nodup) (hd : ∀ c ∈ l, ∀ x ∈ p.members, hf x ≠ hf c) :
    (l.foldl (importCondition specManager iov id pat) s).mgr.pools iov
        = some (ConditionsPool.mk p.iov (p.members ++ l))
    ∧ (l.foldl (importCondition specManager iov id pat) s).count = s.count + l.length
    ∧ (∀ j, j ≠ iov →
        (l.foldl (importCondition specManager iov id pat) s).mgr.pools j = s.mgr.pools j)
    ∧ (l.foldl (importCondition specManager iov id pat) s).mgr.iovTypes = s.mgr.iovTypes := by
  induction l generalizing s p with
  | nil => exact ⟨by simpa using hp, rfl, fun _ _ => rfl, rfl⟩
  | cons c l ih =>
    rw [List.foldl_cons]
    have hd' : ∀ x ∈ p.members, (s.heap x).hash ≠ (s.heap c).hash := by
      intro x hx
      rw [hh, hh]
      exact hd c (List.mem_cons_self c l) x hx
    obtain ⟨h1, h2, -⟩ := importCondition_spec_new iov id pat s c p hp hd'
    have hh' : ∀ x, ((importCondition specManager iov id pat s c).heap x).hash = hf x := by
      intro x
      rw [importCondition_heap, (import_heap_hash s.heap c _ x).1, hh]
    rw [List.map_cons, List.nodup_cons] at hn
    have hp1 : (importCondition specManager iov id pat s c).mgr.pools iov
        = some (ConditionsPool.mk p.iov (p.members ++ [c])) := by
      rw [h1]; simp
    have hd1 : ∀ c' ∈ l, ∀ x ∈ (ConditionsPool.mk p.iov (p.members ++ [c])).members,
        hf x ≠ hf c' := by
      intro c' hc' x hx
      simp only [List.mem_append, List.mem_singleton] at hx
      rcases hx with hx | rfl
      · exact hd c' (List.mem_cons_of_mem c hc') x hx
      · intro e
        exact hn.1 (e ▸ List.mem_map_of_mem hf hc')
    obtain ⟨g1, g2, g3, g4⟩ := ih (ConditionsPool.mk p.iov (p.members ++ [c]))
      (importCondition specManager iov id pat s c) hp1 hh' hn.2 hd1
    refine ⟨?_, ?_, ?_, ?_⟩
    · rw [g1]; simp
    · rw [g2, h2]; simp; omega
    · intro j hj
      rw [g3 j hj, h1]
      simp [Function.update_noteq hj]
    · rw [g4, h1]

theorem addRefAll_hash (ent : pool_type) (heap : Heap) (x : Condition) :
    (addRefAll ent heap x).hash = (heap x).hash := by
  rw [addRefAll_apply]

/-- Loading the one entry captured from a pool into a fresh manager. -/
theorem processEntry_fresh (id pat : String) (key : iov_key_type) (members : pool_type)
    (heap : Heap) (h : (members.map (fun c => (heap c).hash)).Nodup) :
    (processEntry specManager id pat (ImportState.start ManagerState.fresh heap)
        (key, members)).count = members.length
    ∧ (processEntry specManager id pat (ImportState.start ManagerState.fresh heap)
        (key, members)).mgr.pools
          { iovType := { name := key.2.1.1, type := key.2.1.2 }, type := key.2.1.2,
            keyData := key.2.2 }
        = some { iov := { iovType := { name := key.2.1.1, type := key.2.1.2 },
                          type := key.2.1.2, keyData := key.2.2 },
                 members := members } := by
  have h1 : (specManager.registerIOVType (ImportState.start ManagerState.fresh heap).mgr
      key.2.1.2 key.2.1.1).2.2 = some { name := key.2.1.1, type := key.2.1.2 } := by
    simp [specManager, ManagerState.registerIOVType, ManagerState.fresh, ImportState.start]
  rw [processEntry_some specManager id pat _ (key, members) _ h1]
  obtain ⟨r1, ⟨p, hp, hp2⟩, -, -⟩ := registerIOV_spec
    (ManagerState.fresh.registerIOVType key.2.1.2 key.2.1.1).1
    { name := key.2.1.1, type := key.2.1.2 } key.2.2
  have hnone : (ManagerState.fresh.registerIOVType key.2.1.2 key.2.1.1).1.pools
      { iovType := { name := key.2.1.1, type := key.2.1.2 }, type := key.2.1.2,
        keyData := key.2.2 } = none := by
    simp [ManagerState.registerIOVType, ManagerState.fresh]
  have hp3 := hp2 hnone
  subst hp3
  have hreg : specManager.registerIOV
      (specManager.registerIOVType (ImportState.start ManagerState.fresh heap).mgr
        key.2.1.2 key.2.1.1).1 { name := key.2.1.1, type := key.2.1.2 } key.2.2
      = (ManagerState.fresh.registerIOVType key.2.1.2 key.2.1.1).1.registerIOV
          { name := key.2.1.1, type := key.2.1.2 } key.2.2 := rfl
  simp only [hreg, r1]
  obtain ⟨g1, g2, -, -⟩ := foldl_importCondition_all_new (fun c => (heap c).hash)
    { iovType := { name := key.2.1.1, type := key.2.1.2 }, type := key.2.1.2,
      keyData := key.2.2 } id pat members
    { iov := { iovType := { name := key.2.1.1, type := key.2.1.2 }, type := key.2.1.2,
               keyData := key.2.2 }, members := [] }
    { count := (ImportState.start ManagerState.fresh heap).count,
      mgr := ((ManagerState.fresh.registerIOVType key.2.1.2 key.2.1.1).1.registerIOV
          { name := key.2.1.1, type := key.2.1.2 } key.2.2).1,
      heap := (ImportState.start ManagerState.fresh heap).heap,
      trace := (ImportState.start ManagerState.fresh heap).trace
                 ++ [Event.registerIOVType key.2.1.2 key.2.1.1
                      (some { name := key.2.1.1, type := key.2.1.2 })]
                 ++ [Event.registerIOV { name := key.2.1.1, type := key.2.1.2 } key.2.2] }
    hp (fun _ => rfl) h (by simp)
  refine ⟨?_, ?_⟩
  · rw [g2]; simp [ImportState.start]
  · rw [g1]; simp

/-! ## Reference counts during import -/

theorem foldl_importCondition_refCount {M P : Type} (ops : ManagerOps M P) (pool : P)
    (id pat : String) (l : List Condition) (s : ImportState M) (x : Condition) :
    ((l.foldl (importCondition ops pool id pat) s).heap x).refCount
      = (s.heap x).refCount + (l.count x : Int) := by
  induction l generalizing s with
  | nil => simp
  | cons c l ih =>
    rw [List.foldl_cons, ih, importCondition_heap, (import_heap_hash s.heap c _ x).2.2.2]
    by_cases h : x = c
    · subst h
      simp
      ring
    · have h' : ¬ c = x := fun e => h e.symm
      simp [List.count_cons, h, h']

theorem processEntry_refCount {M P : Type} (ops : ManagerOps M P) (id pat : String)
    (s : ImportState M) (e : iov_key_type × pool_type) (x : Condition) :
    ((processEntry ops id pat s e).heap x).refCount
      = (s.heap x).refCount
        + (((if (ops.registerIOVType s.mgr e.1.2.1.2 e.1.2.1.1).2.2.isSome then e.2
              else []).count x : Nat) : Int) := by
  cases h : (ops.registerIOVType s.mgr e.1.2.1.2 e.1.2.1.1).2.2 with
  | none =>
    rw [processEntry_none ops id pat s e h]
    simp
  | some typ =>
    rw [processEntry_some ops id pat s e typ h, foldl_importCondition_refCount]
    simp

theorem foldl_processEntry_refCount {M P : Type} (ops : ManagerOps M P) (id pat : String)
    (l : persistent_type) (s : ImportState M) :
    ∃ t : List Event,
      (l.foldl (processEntry ops id pat) s).trace = s.trace ++ t
      ∧ ∀ x, ((l.foldl (processEntry ops id pat) s).heap x).refCount
          = (s.heap x).refCount + ((t.filterMap Event.attempt?).count x : Int) := by
  induction l generalizing s with
  | nil => exact ⟨[], by simp⟩
  | cons e l ih =>
    obtain ⟨t1, h1, -, h3, -, -⟩ := processEntry_trace ops id pat s e
    obtain ⟨t2, g1, g2⟩ := ih (processEntry ops id pat s e)
    refine ⟨Event.registerIOVType e.1.2.1.2 e.1.2.1.1
              (ops.registerIOVType s.mgr e.1.2.1.2 e.1.2.1.1).2.2 :: t1 ++ t2, ?_, ?_⟩
    · simp [List.foldl_cons, g1, h1]
    · intro x
      rw [List.foldl_cons, g2, processEntry_refCount]
      simp only [List.cons_append, List.filterMap_cons, List.filterMap_append, Event.attempt?,
        h3, List.count_append, Nat.cast_add]
      ring

/-- Every `insert` attempt of `_import` leaves the condition with one more
reference, whatever the attempt reported. -/
theorem import_refCount_per_attempt {M P : Type} (ops : ManagerOps M P)
    (pools : persistent_type) (id pat : String) (mgr : M) (heap : Heap) (c : Condition) :
    ((ConditionsRootPersistency._import ops pools id pat mgr heap).heap c).refCount
      = (heap c).refCount
        + (((ConditionsRootPersistency._import ops pools id pat mgr heap).trace.filterMap
              Event.attempt?).count c : Int) := by
  rw [import_eq_foldl_filter]
  obtain ⟨t, h1, h2⟩ := foldl_processEntry_refCount ops id pat
    (pools.filter (fun e => decide (selected id pat e.1))) (ImportState.start mgr heap)
  rw [h1, h2]
  simp [ImportState.start]

theorem importCondition_mgr {M P : Type} (ops : ManagerOps M P) (pool : P)
    (id pat : String) (s : ImportState M) (c : Condition) :
    (importCondition ops pool id pat s c).mgr
      = (ops.insert s.mgr ((s.heap.setIOV c (ops.poolIOV s.mgr pool)).addRef c) pool c).1 := by
  simp only [importCondition]
  split <;> rfl

theorem import_heap_iov (heap : Heap) (c : Condition) (iov : IOV) (x : Condition) :
    (x = c → (((heap.setIOV c iov).addRef c) x).iov = some iov)
    ∧ (x ≠ c → ((heap.setIOV c iov).addRef c) x = heap x) := by
  constructor
  · intro h
    subst h
    simp [Heap.setIOV, Heap.addRef, ConditionObject.addRef]
  · intro h
    simp [Heap.setIOV, Heap.addRef, Function.update_noteq h]

/-- The loop over the conditions of an entry rebinds each of them to the IOV of
the pool, when `insert` leaves that IOV alone. -/
theorem foldl_importCondition_iov {M P : Type} (ops : ManagerOps M P)
    (hst : ∀ m heap p c, ops.poolIOV (ops.insert m heap p c).1 p = ops.poolIOV m p)
    (pool : P) (id pat : String) (l : List Condition) (s : ImportState M) :
    ops.poolIOV (l.foldl (importCondition ops pool id pat) s).mgr pool = ops.poolIOV s.mgr pool
    ∧ (∀ c ∈ l, ((l.foldl (importCondition ops pool id pat) s).heap c).iov
          = some (ops.poolIOV s.mgr pool))
    ∧ (∀ c, c ∉ l → (l.foldl (importCondition ops pool id pat) s).heap c = s.heap c) := by
  induction l generalizing s with
  | nil => simp
  | cons d l ih =>
    rw [List.foldl_cons]
    obtain ⟨h1, h2, h3⟩ := ih (importCondition ops pool id pat s d)
    have hm : ops.poolIOV (importCondition ops pool id pat s d).mgr pool
        = ops.poolIOV s.mgr pool := by
      rw [importCondition_mgr, hst]
    refine ⟨by rw [h1, hm], ?_, ?_⟩
    · intro c hc
      by_cases hcl : c ∈ l
      · rw [h2 c hcl, hm]
      · have hcd : c = d := by
          rcases List.mem_cons.1 hc with h | h
          · exact h
          · exact absurd h hcl
        rw [h3 c hcl, importCondition_heap]
        exact (import_heap_iov s.heap d _ c).1 hcd
    · intro c hc
      have hcd : c ≠ d := fun e => hc (e ▸ List.mem_cons_self d l)
      have hcl : c ∉ l := fun e => hc (List.mem_cons_of_mem d e)
      rw [h3 c hcl, importCondition_heap]
      exact (import_heap_iov s.heap d _ c).2 hcd

theorem foldl_importCondition_untouched {M P : Type} (ops : ManagerOps M P)
    (pool : P) (id pat : String) (l : List Condition) (s : ImportState M) (c : Condition)
    (hc : c ∉ l) : (l.foldl (importCondition ops pool id pat) s).heap c = s.heap c := by
  induction l generalizing s with
  | nil => rfl
  | cons d l ih =>
    have hcd : c ≠ d := fun e => hc (e ▸ List.mem_cons_self d l)
    have hcl : c ∉ l := fun e => hc (List.mem_cons_of_mem d e)
    rw [List.foldl_cons, ih _ hcl, importCondition_heap]
    exact (import_heap_iov s.heap d _ c).2 hcd

theorem processEntry_untouched {M P : Type} (ops : ManagerOps M P) (id pat : String)
    (s : ImportState M) (e : iov_key_type × pool_type) (c : Condition)
    (hc : c ∉ (if (ops.registerIOVType s.mgr e.1.2.1.2 e.1.2.1.1).2.2.isSome then e.2 else [])) :
    (processEntry ops id pat s e).heap c = s.heap c := by
  cases h : (ops.registerIOVType s.mgr e.1.2.1.2 e.1.2.1.1).2.2 with
  | none => rw [processEntry_none ops id pat s e h]
  | some typ =>
    rw [h] at hc
    rw [processEntry_some ops id pat s e typ h, foldl_importCondition_untouched]
    simpa using hc

theorem processEntry_iov {M P : Type} (ops : ManagerOps M P)
    (hst : ∀ m heap p c, ops.poolIOV (ops.insert m heap p c).1 p = ops.poolIOV m p)
    (id pat : String) (s : ImportState M) (e : iov_key_type × pool_type) (typ : IOVType)
    (h : (ops.registerIOVType s.mgr e.1.2.1.2 e.1.2.1.1).2.2 = some typ)
    (c : Condition) (hc : c ∈ e.2) :
    ((processEntry ops id pat s e).heap c).iov = some (entryIOV ops s e typ) := by
  rw [processEntry_some ops id pat s e typ h]
  exact (foldl_importCondition_iov ops hst _ id pat e.2 _).2.1 c hc

theorem foldl_processEntry_untouched {M P : Type} (ops : ManagerOps M P) (id pat : String)
    (l : persistent_type) (s : ImportState M) (c : Condition) (hc : c ∉ allConditions l) :
    (l.foldl (processEntry ops id pat) s).heap c = s.heap c := by
  induction l generalizing s with
  | nil => rfl
  | cons e l ih =>
    have h1 : c ∉ e.2 := fun h => hc (by simp [allConditions, h])
    have h2 : c ∉ allConditions l := fun h => hc (by
      simp only [allConditions, List.flatMap_cons, List.mem_append]
      exact Or.inr h)
    rw [List.foldl_cons, ih _ h2]
    apply processEntry_untouched
    split
    · exact h1
    · simp

theorem foldl_importEntry_eq {M P : Type} (ops : ManagerOps M P) (id pat : String)
    (l : persistent_type) (s : ImportState M) :
    l.foldl (importEntry ops id pat) s
      = (l.filter (fun e => decide (selected id pat e.1))).foldl (processEntry ops id pat) s := by
  rw [← foldl_ite_filter]
  congr 1
  funext s e
  exact importEntry_eq ops id pat s e

theorem foldl_processEntry_untouched_trace {M P : Type} (ops : ManagerOps M P)
    (id pat : String) (l : persistent_type) (s : ImportState M) :
    ∃ t : List Event,
      (l.foldl (processEntry ops id pat) s).trace = s.trace ++ t
      ∧ ∀ c, c ∉ t.filterMap Event.attempt? →
          (l.foldl (processEntry ops id pat) s).heap c = s.heap c := by
  induction l generalizing s with
  | nil => exact ⟨[], by simp⟩
  | cons e l ih =>
    obtain ⟨t1, h1, -, h3, -, -⟩ := processEntry_trace ops id pat s e
    obtain ⟨t2, g1, g2⟩ := ih (processEntry ops id pat s e)
    refine ⟨Event.registerIOVType e.1.2.1.2 e.1.2.1.1
              (ops.registerIOVType s.mgr e.1.2.1.2 e.1.2.1.1).2.2 :: t1 ++ t2, ?_, ?_⟩
    · simp [List.foldl_cons, g1, h1]
    · intro c hc
      simp only [List.cons_append, List.filterMap_cons, List.filterMap_append, Event.attempt?,
        h3, List.mem_append, not_or] at hc
      rw [List.foldl_cons, g2 c hc.2]
      exact processEntry_untouched ops id pat s e c hc.1

theorem specManager_poolIOV_insert (m : ManagerState) (heap : Heap) (p : IOV) (c : Condition) :
    specManager.poolIOV (specManager.insert m heap p c).1 p = specManager.poolIOV m p := by
  simp only [specManager, ManagerState.insert, ManagerState.poolIOV]
  cases h : m.pools p with
  | none => simp [h]
  | some pool =>
    by_cases hd : (pool.members.any fun m => (heap m).hash == (heap c).hash) = true
    · simp [ConditionsPool.insert, hd, h]
    · simp [ConditionsPool.insert, hd, h]

/-! ## Save, load and the duration stamp -/

theorem save_of_open {F : Type} (self : PersistencyObject) (ops : TFileOps F) (clock : Clock)
    (fname : String) (file : F) (h1 : ops.Open fname "RECREATE" = some file)
    (h2 : ops.IsZombie file = false) :
    self.save ops clock fname
      = { value := ((self.save_TFile ops (DurationStamp.construct clock).2 file).value.1,
            [FileCall.Open fname "RECREATE", FileCall.WriteTObject file self.name,
             FileCall.Close file, FileCall.deleted file]),
          self := { self with
            duration := clock.readings (clock.taken + 3) - clock.readings clock.taken },
          clock := { clock with taken := clock.taken + 4 } } := by
  simp [PersistencyObject.save, h1, h2, PersistencyObject.save_TFile, DurationStamp.construct,
    DurationStamp.destruct, Clock.read]

theorem save_of_openFails {F : Type} (self : PersistencyObject) (ops : TFileOps F)
    (clock : Clock) (fname : String) (h : ops.openFails fname = true) :
    self.save ops clock fname
      = { value := (-1, [FileCall.Open fname "RECREATE"]),
          self := { self with
            duration := clock.readings (clock.taken + 1) - clock.readings clock.taken },
          clock := { clock with taken := clock.taken + 2 } } := by
  unfold TFileOps.openFails at h
  cases h1 : ops.Open fname "RECREATE" with
  | none =>
    simp [PersistencyObject.save, h1, DurationStamp.construct, DurationStamp.destruct,
      Clock.read]
  | some file =>
    rw [h1] at h
    simp only [] at h
    simp [PersistencyObject.save, h1, h, DurationStamp.construct, DurationStamp.destruct,
      Clock.read]

theorem openFails_eq_false {F : Type} (ops : TFileOps F) (fname : String)
    (h : ops.openFails fname = false) :
    ∃ file, ops.Open fname "RECREATE" = some file ∧ ops.IsZombie file = false := by
  unfold TFileOps.openFails at h
  cases h1 : ops.Open fname "RECREATE" with
  | none => rw [h1] at h; simp at h
  | some file =>
    rw [h1] at h
    exact ⟨file, rfl, h⟩

theorem foldl_importCondition_fields {M P : Type} (ops : ManagerOps M P) (pool : P)
    (id pat : String) (l : List Condition) (s : ImportState M) (x : Condition) :
    ((l.foldl (importCondition ops pool id pat) s).heap x).name = (s.heap x).name
    ∧ ((l.foldl (importCondition ops pool id pat) s).heap x).hash = (s.heap x).hash
    ∧ ((l.foldl (importCondition ops pool id pat) s).heap x).destroyed = (s.heap x).destroyed := by
  induction l generalizing s with
  | nil => simp
  | cons c l ih =>
    rw [List.foldl_cons]
    obtain ⟨h1, h2, h3⟩ := ih (importCondition ops pool id pat s c)
    obtain ⟨g1, g2, g3, -⟩ := import_heap_hash s.heap c (ops.poolIOV s.mgr pool) x
    rw [h1, h2, h3, importCondition_heap]
    exact ⟨g2, g1, g3⟩

theorem processEntry_fields {M P : Type} (ops : ManagerOps M P) (id pat : String)
    (s : ImportState M) (e : iov_key_type × pool_type) (x : Condition) :
    ((processEntry ops id pat s e).heap x).name = (s.heap x).name
    ∧ ((processEntry ops id pat s e).heap x).hash = (s.heap x).hash
    ∧ ((processEntry ops id pat s e).heap x).destroyed = (s.heap x).destroyed := by
  cases h : (ops.registerIOVType s.mgr e.1.2.1.2 e.1.2.1.1).2.2 with
  | none =>
    rw [processEntry_none ops id pat s e h]
    simp
  | some typ =>
    rw [processEntry_some ops id pat s e typ h]
    exact foldl_importCondition_fields ops _ id pat e.2 _ x

theorem import_fields {M P : Type} (ops : ManagerOps M P) (pools : persistent_type)
    (id pat : String) (mgr : M) (heap : Heap) (x : Condition) :
    ((ConditionsRootPersistency._import ops pools id pat mgr heap).heap x).name = (heap x).name
    ∧ ((ConditionsRootPersistency._import ops pools id pat mgr heap).heap x).hash
        = (heap x).hash
    ∧ ((ConditionsRootPersistency._import ops pools id pat mgr heap).heap x).destroyed
        = (heap x).destroyed := by
  rw [import_eq_foldl_filter]
  generalize pools.filter (fun e => decide (selected id pat e.1)) = l
  have key : ∀ (l : persistent_type) (s : ImportState M),
      ((l.foldl (processEntry ops id pat) s).heap x).name = (s.heap x).name
      ∧ ((l.foldl (processEntry ops id pat) s).heap x).hash = (s.heap x).hash
      ∧ ((l.foldl (processEntry ops id pat) s).heap x).destroyed = (s.heap x).destroyed := by
    intro l
    induction l with
    | nil => intro s; simp
    | cons e l ih =>
      intro s
      rw [List.foldl_cons]
      obtain ⟨h1, h2, h3⟩ := ih (processEntry ops id pat s e)
      obtain ⟨g1, g2, g3⟩ := processEntry_fields ops id pat s e x
      exact ⟨by rw [h1, g1], by rw [h2, g2], by rw [h3, g3]⟩
  exact key l (ImportState.start mgr heap)

/-! ## Capture twice, import once -/

theorem insertResult_fst (t : List Event) :
    (t.filterMap Event.insertResult?).map Prod.fst = t.filterMap Event.attempt? := by
  induction t with
  | nil => rfl
  | cons e t ih =>
    cases e <;> simp [List.filterMap_cons, Event.insertResult?, Event.attempt?, ih]

theorem insertResult_count (t : List Event) :
    (t.filterMap Event.insertResult?).countP (fun x => x.2) = t.countP Event.isInserted := by
  induction t with
  | nil => rfl
  | cons e t ih =>
    cases e with
    | insert c ok =>
      cases ok <;>
        simp [List.filterMap_cons, Event.insertResult?, Event.isInserted, List.countP_cons, ih]
    | registerIOVType a b c =>
      simp [List.filterMap_cons, Event.insertResult?, Event.isInserted, List.countP_cons, ih]
    | registerIOV a b =>
      simp [List.filterMap_cons, Event.insertResult?, Event.isInserted, List.countP_cons, ih]
    | warning a b c =>
      simp [List.filterMap_cons, Event.insertResult?, Event.isInserted, List.countP_cons, ih]

theorem map_fst_all_true (l : List (Condition × Bool))
    (h : l.countP (fun x => x.2) = l.length) : l = (l.map Prod.fst).map (fun c => (c, true)) := by
  induction l with
  | nil => rfl
  | cons a l ih =>
    obtain ⟨c, b⟩ := a
    cases b with
    | true =>
      simp only [List.countP_cons, List.length_cons] at h
      simp only [List.map_cons]
      rw [← ih (by simpa using h)]
    | false =>
      simp only [List.countP_cons, List.length_cons] at h
      have := List.countP_le_length (fun x : Condition × Bool => x.2) (l := l)
      simp at h
      omega

theorem map_fst_all_false (l : List (Condition × Bool))
    (h : l.countP (fun x => x.2) = 0) : l = (l.map Prod.fst).map (fun c => (c, false)) := by
  induction l with
  | nil => rfl
  | cons a l ih =>
    obtain ⟨c, b⟩ := a
    cases b with
    | true => simp [List.countP_cons] at h
    | false =>
      simp only [List.countP_cons] at h
      simp only [List.map_cons]
      rw [← ih (by simpa using h)]

/-- The insert outcomes in a stretch of trace whose attempts all succeeded. -/
theorem insertResult_all_inserted (t : List Event)
    (h : t.countP Event.isInserted = (t.filterMap Event.attempt?).length) :
    t.filterMap Event.insertResult? = (t.filterMap Event.attempt?).map (fun c => (c, true)) := by
  rw [← insertResult_fst]
  apply map_fst_all_true
  rw [insertResult_count, h, ← insertResult_fst, List.length_map]

/-- The insert outcomes in a stretch of trace none of whose attempts succeeded. -/
theorem insertResult_none_inserted (t : List Event) (h : t.countP Event.isInserted = 0) :
    t.filterMap Event.insertResult? = (t.filterMap Event.attempt?).map (fun c => (c, false)) := by
  rw [← insertResult_fst]
  apply map_fst_all_false
  rw [insertResult_count, h]

theorem runAdds_twice (identifier : String) (pool : ConditionsPool) (heap : Heap) :
    runAdds [AddCall.conditionsPool identifier pool, AddCall.conditionsPool identifier pool] heap
      = ({ conditionPools :=
             [((identifier, ((pool.iov.iovType.name, pool.iov.type), pool.iov.keyData)),
                pool.members),
              ((identifier, ((pool.iov.iovType.name, pool.iov.type), pool.iov.keyData)),
                pool.members)],
           userPools := [], iovPools := [] },
         addRefAll pool.members (addRefAll pool.members heap)) := by
  simp [runAdds, AddCall.run, add_ConditionsPool_eq, ConditionsRootPersistency.empty]

/-- Loading the same entry twice into a fresh manager: the first pass inserts
every condition, the second none. -/
theorem processEntry_twice_fresh (id pat : String) (key : iov_key_type) (members : pool_type)
    (heap : Heap) (h : (members.map (fun c => (heap c).hash)).Nodup) :
    ([(key, members), (key, members)].foldl (processEntry specManager id pat)
        (ImportState.start ManagerState.fresh heap)).count = members.length
    ∧ ([(key, members), (key, members)].foldl (processEntry specManager id pat)
        (ImportState.start ManagerState.fresh heap)).trace.filterMap Event.insertResult?
        = members.map (fun c => (c, true)) ++ members.map (fun c => (c, false)) := by
  simp only [List.foldl_cons, List.foldl_nil]
  obtain ⟨c1, -⟩ := processEntry_fresh id pat key members heap h
  obtain ⟨v1, -, v3⟩ := processEntry_spec_covers (fun c => (heap c).hash) id pat
    (ImportState.start ManagerState.fresh heap) (key, members) (fun _ => rfl)
  obtain ⟨-, w2, -⟩ := processEntry_spec_covered (fun c => (heap c).hash) id pat
    (processEntry specManager id pat (ImportState.start ManagerState.fresh heap) (key, members))
    (key, members) v3 v1
  obtain ⟨t1, a1, -, a3, a4, -⟩ := processEntry_trace specManager id pat
    (ImportState.start ManagerState.fresh heap) (key, members)
  obtain ⟨t2, b1, -, b3, b4, -⟩ := processEntry_trace specManager id pat
    (processEntry specManager id pat (ImportState.start ManagerState.fresh heap) (key, members))
    (key, members)
  obtain ⟨ty1, hty1, -, -⟩ := registerIOVType_spec ManagerState.fresh key.2.1.2 key.2.1.1
  have hty1' : (specManager.registerIOVType (ImportState.start ManagerState.fresh heap).mgr
      key.2.1.2 key.2.1.1).2.2 = some ty1 := hty1
  obtain ⟨ty2, hty2, -, -⟩ := registerIOVType_spec
    (processEntry specManager id pat (ImportState.start ManagerState.fresh heap)
      (key, members)).mgr key.2.1.2 key.2.1.1
  have hty2' : (specManager.registerIOVType
      (processEntry specManager id pat (ImportState.start ManagerState.fresh heap)
        (key, members)).mgr key.2.1.2 key.2.1.1).2.2 = some ty2 := hty2
  simp only [hty1', Option.isSome_some, if_true] at a3
  simp only [hty2', Option.isSome_some, if_true] at b3
  have n1 : t1.countP Event.isInserted = (t1.filterMap Event.attempt?).length := by
    rw [a3]
    rw [c1] at a4
    simp only [ImportState.start] at a4
    omega
  have n2 : t2.countP Event.isInserted = 0 := by
    rw [w2] at b4
    omega
  refine ⟨by rw [w2, c1], ?_⟩
  rw [b1, a1]
  simp only [ImportState.start, List.nil_append, List.filterMap_append, List.filterMap_cons,
    Event.insertResult?]
  rw [insertResult_all_inserted t1 n1, insertResult_none_inserted t2 n2, a3, b3]

theorem addRefAll_twice_nodup (members : pool_type) (heap : Heap) (hn : members.Nodup)
    (c : Condition) :
    (c ∈ members →
        (addRefAll members (addRefAll members heap) c).refCount = (heap c).refCount + 2)
    ∧ (c ∉ members → addRefAll members (addRefAll members heap) c = heap c) := by
  constructor
  · intro hc
    rw [addRefAll_apply, addRefAll_apply, List.count_eq_one_of_mem hn hc]
    simp only [Nat.cast_one]
    ring
  · intro hc
    rw [addRefAll_apply, addRefAll_apply, List.count_eq_zero_of_not_mem hc]
    simp

/-! ## Detector elements: `add`, and the path it evaluates for its message -/

theorem sameHierarchy_refl (heap : DetHeap) : SameHierarchy heap heap :=
  fun _ => ⟨rfl, rfl, rfl⟩

theorem sameHierarchy_trans {a b c : DetHeap} (h1 : SameHierarchy a b)
    (h2 : SameHierarchy b c) : SameHierarchy a c := by
  intro x
  obtain ⟨p1, p2, p3⟩ := h1 x
  obtain ⟨q1, q2, q3⟩ := h2 x
  exact ⟨by rw [q1, p1], by rw [q2, p2], by rw [q3, p3]⟩

theorem sameHierarchy_update_caches (heap : DetHeap) (o : Nat) (obj : DetElementObject)
    (h1 : obj.name = (heap o).name) (h2 : obj.parent = (heap o).parent)
    (h3 : obj.children = (heap o).children) :
    SameHierarchy heap (Function.update heap o obj) := by
  intro x
  by_cases hx : x = o
  · subst hx
    simp [h1, h2, h3]
  · simp [Function.update_noteq hx]

theorem sameHierarchy_update {a b : DetHeap} (h : SameHierarchy a b) (o : Nat)
    (obj : DetElementObject) (h1 : obj.name = (b o).name) (h2 : obj.parent = (b o).parent)
    (h3 : obj.children = (b o).children) : SameHierarchy a (Function.update b o obj) :=
  sameHierarchy_trans h (sameHierarchy_update_caches b o obj h1 h2 h3)

theorem pathWith_sameHierarchy (mp : DetHeap → Nat → Option DetHeap)
    (hmp : ∀ heap o heap', mp heap o = some heap' → SameHierarchy heap heap')
    (heap : DetHeap) (self : DetElement) (heap' : DetHeap) (s : String)
    (h : pathWith mp heap self = some (heap', s)) : SameHierarchy heap heap' := by
  cases self with
  | none =>
    simp only [pathWith, Option.some.injEq, Prod.mk.injEq] at h
    rw [← h.1]
    exact sameHierarchy_refl heap
  | some o =>
    simp only [pathWith] at h
    split at h
    · simp only [Option.some.injEq, Prod.mk.injEq] at h
      rw [← h.1]
      exact sameHierarchy_refl heap
    · cases hm : mp heap o with
      | none => rw [hm] at h; cases h
      | some heap1 =>
        rw [hm] at h
        simp only [Option.some.injEq, Prod.mk.injEq] at h
        rw [← h.1]
        exact hmp heap o heap1 hm

theorem levelWith_sameHierarchy (mp : DetHeap → Nat → Option DetHeap)
    (hmp : ∀ heap o heap', mp heap o = some heap' → SameHierarchy heap heap')
    (heap : DetHeap) (self : DetElement) (heap' : DetHeap) (l : Int)
    (h : levelWith mp heap self = some (heap', l)) : SameHierarchy heap heap' := by
  cases self with
  | none =>
    simp only [levelWith, Option.some.injEq, Prod.mk.injEq] at h
    rw [← h.1]
    exact sameHierarchy_refl heap
  | some o =>
    simp only [levelWith] at h
    split at h
    · simp only [Option.some.injEq, Prod.mk.injEq] at h
      rw [← h.1]
      exact sameHierarchy_refl heap
    · cases hm : mp heap o with
      | none => rw [hm] at h; cases h
      | some heap1 =>
        rw [hm] at h
        simp only [Option.some.injEq, Prod.mk.injEq] at h
        rw [← h.1]
        exact hmp heap o heap1 hm

/-- The helper `make_path` changes no name, no parent link and no children map. -/
theorem make_path_sameHierarchy (hash32 : String → Nat) (fuel : Nat) :
    ∀ (heap : DetHeap) (o : Nat) (heap' : DetHeap),
      make_path hash32 fuel heap o = some heap' → SameHierarchy heap heap' := by
  induction fuel with
  | zero => intro heap o heap' h; simp [make_path] at h
  | succ fuel ih =>
    intro heap o heap' h
    rw [make_path] at h
    cases hp : (heap o).parent with
    | none =>
      rw [hp] at h
      simp only [Option.some.injEq] at h
      rw [← h]
      refine sameHierarchy_update (sameHierarchy_update (sameHierarchy_refl heap) o _ ?_ ?_ ?_)
        o _ ?_ ?_ ?_ <;> simp
    | some par =>
      rw [hp] at h
      simp only [] at h
      cases h1 : pathWith (make_path hash32 fuel) heap (some par) with
      | none => rw [h1] at h; cases h
      | some r1 =>
        obtain ⟨heap1, parPath⟩ := r1
        rw [h1] at h
        simp only [] at h
        have s1 := pathWith_sameHierarchy _ ih heap (some par) heap1 parPath h1
        have s2 : SameHierarchy heap1 (Function.update heap1 o
            { heap1 o with path := parPath ++ "/" ++ (heap1 o).name }) :=
          sameHierarchy_update_caches heap1 o _ rfl rfl rfl
        split at h
        · cases h3 : levelWith (make_path hash32 fuel) (Function.update heap1 o
              { heap1 o with path := parPath ++ "/" ++ (heap1 o).name }) (some par) with
          | none => rw [h3] at h; cases h
          | some r3 =>
            obtain ⟨heap3, parLevel⟩ := r3
            rw [h3] at h
            simp only [Option.some.injEq] at h
            have s3 := levelWith_sameHierarchy _ ih _ (some par) heap3 parLevel h3
            rw [← h]
            refine sameHierarchy_update (sameHierarchy_update (sameHierarchy_trans (sameHierarchy_trans s1 s2) s3) o _
              ?_ ?_ ?_) o _ ?_ ?_ ?_ <;> simp
        · simp only [Option.some.injEq] at h
          rw [← h]
          refine sameHierarchy_update (sameHierarchy_trans s1 s2) o _ ?_ ?_ ?_ <;> simp

theorem parentChainEnds_congr (heap heap' : DetHeap) (h : SameHierarchy heap heap') (n : Nat) :
    ∀ o, parentChainEnds heap' n o = parentChainEnds heap n o := by
  induction n with
  | zero => intro o; rfl
  | succ n ih =>
    intro o
    simp only [parentChainEnds, (h o).2.1]
    cases (heap o).parent with
    | none => rfl
    | some par => exact ih par

theorem parentChainEnds_succ (heap : DetHeap) (n : Nat) :
    ∀ o, parentChainEnds heap n o = true → parentChainEnds heap (n + 1) o = true := by
  induction n with
  | zero => intro o h; simp [parentChainEnds] at h
  | succ n ih =>
    intro o h
    rw [parentChainEnds] at h ⊢
    cases hp : (heap o).parent with
    | none => rfl
    | some par =>
      rw [hp] at h
      exact ih par h

theorem parentChainEnds_mono (heap : DetHeap) (n m : Nat) (hnm : n ≤ m) (o : Nat)
    (h : parentChainEnds heap n o = true) : parentChainEnds heap m o = true := by
  induction hnm with
  | refl => exact h
  | step _ ih => exact parentChainEnds_succ heap _ o ih

/-- With enough fuel for the chain of parents, `make_path` comes back. -/
theorem make_path_terminates (hash32 : String → Nat) (n : Nat) :
    ∀ (heap : DetHeap) (o : Nat), parentChainEnds heap n o = true →
      ∃ heap', make_path hash32 n heap o = some heap' := by
  induction n with
  | zero => intro heap o h; simp [parentChainEnds] at h
  | succ n ih =>
    intro heap o h
    rw [parentChainEnds] at h
    rw [make_path]
    cases hp : (heap o).parent with
    | none => exact ⟨_, rfl⟩
    | some par =>
      rw [hp] at h
      simp only [] at h ⊢
      have e1 : ∃ heap1 parPath, pathWith (make_path hash32 n) heap (some par)
          = some (heap1, parPath) := by
        simp only [pathWith]
        split
        · exact ⟨_, _, rfl⟩
        · obtain ⟨heap1, h1⟩ := ih heap par h
          rw [h1]
          exact ⟨_, _, rfl⟩
      obtain ⟨heap1, parPath, h1⟩ := e1
      rw [h1]
      simp only []
      have s1 := pathWith_sameHierarchy _ (make_path_sameHierarchy hash32 n) heap (some par)
        heap1 parPath h1
      have s2 : SameHierarchy heap1 (Function.update heap1 o
          { heap1 o with path := parPath ++ "/" ++ (heap1 o).name }) :=
        sameHierarchy_update_caches heap1 o _ rfl rfl rfl
      split
      · have hc : parentChainEnds (Function.update heap1 o
            { heap1 o with path := parPath ++ "/" ++ (heap1 o).name }) n par = true := by
          rw [parentChainEnds_congr heap _ (sameHierarchy_trans s1 s2)]
          exact h
        have e3 : ∃ heap3 parLevel, levelWith (make_path hash32 n) (Function.update heap1 o
            { heap1 o with path := parPath ++ "/" ++ (heap1 o).name }) (some par)
            = some (heap3, parLevel) := by
          simp only [levelWith]
          split
          · exact ⟨_, _, rfl⟩
          · obtain ⟨heap3, h3⟩ := ih _ par hc
            rw [h3]
            exact ⟨_, _, rfl⟩
        obtain ⟨heap3, parLevel, h3⟩ := e3
        rw [h3]
        exact ⟨_, rfl⟩
      · exact ⟨_, rfl⟩

/-- In a heap where two elements without cached path are each other's parent,
`make_path` never comes back, whatever the fuel. -/
theorem make_path_cycle (hash32 : String → Nat) (heap : DetHeap) (a b : Nat)
    (ha : (heap a).parent = some b) (hb : (heap b).parent = some a)
    (pa : (heap a).path = "") (pb : (heap b).path = "") (fuel : Nat) :
    make_path hash32 fuel heap a = none ∧ make_path hash32 fuel heap b = none := by
  have he : ("" : String).isEmpty = true := by decide
  induction fuel with
  | zero => exact ⟨rfl, rfl⟩
  | succ fuel ih =>
    constructor
    · rw [make_path, ha]
      simp [pathWith, pb, ih.2, he]
    · rw [make_path, hb]
      simp [pathWith, pa, ih.1, he]

theorem add_of_absent (hash32 : String → Nat) (fuel : Nat) (heap : DetHeap) (p sdet : Nat)
    (h : (heap p).children (heap sdet).name = none) :
    DetElement.add hash32 fuel heap (some p) sdet
      = some (AddOutcome.returned (some p)
          (Function.update
            (Function.update heap p
              { heap p with children :=
                  Function.update (heap p).children (heap sdet).name (some (some sdet)) })
            sdet
            { (Function.update heap p
                { heap p with children :=
                    Function.update (heap p).children (heap sdet).name (some (some sdet)) })
                sdet with parent := some p })) := by
  simp only [DetElement.add, h]

theorem add_of_present (hash32 : String → Nat) (fuel : Nat) (heap : DetHeap) (p sdet : Nat)
    (c : DetElement) (h : (heap p).children (heap sdet).name = some c) :
    DetElement.add hash32 fuel heap (some p) sdet
      = match DetElement.path hash32 fuel heap (some p) with
        | some (heap1, thisPath) =>
          some (AddOutcome.raised
            ("DetElement::add: Element " ++ (heap1 sdet).name ++ " is already present in path "
              ++ thisPath ++ " [Double-Insert]") heap1)
        | none => none := by
  simp only [DetElement.add, h]

theorem path_terminates (hash32 : String → Nat) (n fuel : Nat) (heap : DetHeap) (p : Nat)
    (hc : parentChainEnds heap n p = true) (hn : n ≤ fuel) :
    ∃ heap1 thisPath, DetElement.path hash32 fuel heap (some p) = some (heap1, thisPath) := by
  simp only [DetElement.path, pathWith]
  split
  · exact ⟨_, _, rfl⟩
  · obtain ⟨heap1, h1⟩ := make_path_terminates hash32 fuel heap p
      (parentChainEnds_mono heap n fuel hn p hc)
    rw [h1]
    exact ⟨_, _, rfl⟩

/-! ## Import: entries that get no type -/

/-- A condition is left as it was by the entries of a catalog when every
selected entry that holds it gets no type from `registerIOVType`. -/
theorem foldl_importEntry_not_loaded {M P : Type} (ops : ManagerOps M P) (id pat : String)
    (l : persistent_type) (s : ImportState M) (c : Condition)
    (h : ∀ (mid : persistent_type) (x : iov_key_type × pool_type) (rest : persistent_type),
        l = mid ++ x :: rest → selected id pat x.1 → c ∈ x.2 →
        (ops.registerIOVType (mid.foldl (importEntry ops id pat) s).mgr
            x.1.2.1.2 x.1.2.1.1).2.2 = none) :
    (l.foldl (importEntry ops id pat) s).heap c = s.heap c := by
  induction l generalizing s with
  | nil => rfl
  | cons x l ih =>
    rw [List.foldl_cons, ih (importEntry ops id pat s x)]
    · rw [importEntry_eq]
      by_cases hsel : selected id pat x.1
      · rw [if_pos hsel]
        by_cases hc : c ∈ x.2
        · rw [processEntry_none ops id pat s x (h [] x l rfl hsel hc)]
        · apply processEntry_untouched
          split
          · exact hc
          · simp
      · rw [if_neg hsel]
    · intro mid y rest hl hsel hc
      exact h (x :: mid) y rest (by rw [hl]; rfl) hsel hc

theorem refusingManager_poolIOV_insert (refused : String) (m : ManagerState) (heap : Heap)
    (p : IOV) (c : Condition) :
    (refusingManager refused).poolIOV ((refusingManager refused).insert m heap p c).1 p
      = (refusingManager refused).poolIOV m p :=
  specManager_poolIOV_insert m heap p c

/-! # The claims -/

/-- C1: `_import` loads a catalog entry if and only if the identifier filter and
the IOV-type filter both match it, a filter matching when it is empty, is `"*"`
or equals the entry's value exactly. The run of `_import` is the run of the
loading step `processEntry` over exactly the entries passing that test, in
catalog order; the `registerIOVType` calls it makes are, in order, those of the
passing entries; the pattern `"ru*"` does not select an entry of type `"run"`
(nothing is called, nothing changes); and `importConditionsPool`,
`importIOVPool`, `importUserPool` are `_import` on their catalog. -/
theorem import_loads_exactly_the_selected_entries {M P : Type} (ops : ManagerOps M P)
    (pools : persistent_type) (id pat : String) (mgr : M) (heap : Heap) :
    ConditionsRootPersistency._import ops pools id pat mgr heap
        = (pools.filter (fun e => decide ((id = "" ∨ id = "*" ∨ e.1.1 = id)
              ∧ (pat = "" ∨ pat = "*" ∨ e.1.2.1.1 = pat)))).foldl
            (processEntry ops id pat) (ImportState.start mgr heap)
    ∧ ((ConditionsRootPersistency._import ops pools id pat mgr heap).trace.filterMap
          Event.registered?).map Prod.fst
        = (pools.filter (fun e => decide ((id = "" ∨ id = "*" ∨ e.1.1 = id)
              ∧ (pat = "" ∨ pat = "*" ∨ e.1.2.1.1 = pat)))).map
            (fun e => (e.1.2.1.2, e.1.2.1.1))
    ∧ (∀ (ident : String) (type : Int) (key : IOVKey) (conds : pool_type),
        ConditionsRootPersistency._import ops [((ident, (("run", type), key)), conds)] id "ru*"
            mgr heap
          = ImportState.start mgr heap)
    ∧ (∀ self : ConditionsRootPersistency,
        self.importConditionsPool ops id pat mgr heap
            = ConditionsRootPersistency._import ops self.conditionPools id pat mgr heap
        ∧ self.importIOVPool ops id pat mgr heap
            = ConditionsRootPersistency._import ops self.iovPools id pat mgr heap
        ∧ self.importUserPool ops id pat mgr heap
            = ConditionsRootPersistency._import ops self.userPools id pat mgr heap) := by
  refine ⟨import_eq_foldl_filter ops pools id pat mgr heap, ?_, ?_, ?_⟩
  · rw [import_eq_foldl_filter]
    obtain ⟨t, h1, h2, -⟩ := foldl_processEntry_trace ops id pat
      (pools.filter (fun e => decide (selected id pat e.1))) (ImportState.start mgr heap)
    rw [h1]
    simpa [ImportState.start] using h2
  · intro ident type key conds
    have h : ¬ selected id "ru*" (ident, (("run", type), key)) := by
      intro h
      have h2 := h.2
      simp only [matchRule] at h2
      revert h2
      decide
    simp [ConditionsRootPersistency._import, importEntry_eq, h, ImportState.start]
  · intro self
    exact ⟨rfl, rfl, rfl⟩

/-- C2: the count `_import` returns is the number of `insert` calls that reported
success. There is one `registerIOVType` call per selected entry, and the
conditions on which `insert` is attempted are, in order, all conditions of the
selected entries whose `registerIOVType` call returned a type: an entry that is
not selected or gets no type contributes no attempt, and after a duplicate the
remaining conditions are still attempted. This holds for every behaviour of the
manager operations. -/
theorem import_count_is_number_of_successful_inserts {M P : Type} (ops : ManagerOps M P)
    (pools : persistent_type) (id pat : String) (mgr : M) (heap : Heap) :
    (ConditionsRootPersistency._import ops pools id pat mgr heap).count
        = (ConditionsRootPersistency._import ops pools id pat mgr heap).trace.countP
            Event.isInserted
    ∧ ((ConditionsRootPersistency._import ops pools id pat mgr heap).trace.filterMap
          Event.registered?).length
        = (pools.filter (fun e => decide (selected id pat e.1))).length
    ∧ (ConditionsRootPersistency._import ops pools id pat mgr heap).trace.filterMap
          Event.attempt?
        = ((pools.filter (fun e => decide (selected id pat e.1))).zip
            ((ConditionsRootPersistency._import ops pools id pat mgr heap).trace.filterMap
              Event.registered?)).flatMap
            (fun x => if x.2.2.isSome then x.1.2 else []) := by
  rw [import_eq_foldl_filter]
  obtain ⟨t, h1, h2, h3, h4, -⟩ := foldl_processEntry_trace ops id pat
    (pools.filter (fun e => decide (selected id pat e.1))) (ImportState.start mgr heap)
  have ht : ((pools.filter (fun e => decide (selected id pat e.1))).foldl
      (processEntry ops id pat) (ImportState.start mgr heap)).trace = t := by
    rw [h1]; simp [ImportState.start]
  rw [ht]
  refine ⟨?_, ?_, h3⟩
  · rw [h4]; simp [ImportState.start]
  · have := congrArg List.length h2
    simpa using this

/-- C3: a pool whose conditions have pairwise distinct hashes is captured into an
empty catalog with `add("A", pool)`, which returns the number `N` of its
members; `importConditionsPool("A", "*", mgr)` on a fresh manager of the
specification then returns `N`, and the pool the manager holds for the entry's
type and key has exactly the members of the captured pool, in order. -/
theorem capture_then_import_into_fresh_manager (pool : ConditionsPool) (heap : Heap)
    (h : (pool.members.map (fun c => (heap c).hash)).Nodup) :
    (ConditionsRootPersistency.empty.add_ConditionsPool heap "A" pool).count
        = pool.members.length
    ∧ ((ConditionsRootPersistency.empty.add_ConditionsPool heap "A" pool).self.importConditionsPool
          specManager "A" "*" ManagerState.fresh
          (ConditionsRootPersistency.empty.add_ConditionsPool heap "A" pool).heap).count
        = pool.members.length
    ∧ ((ConditionsRootPersistency.empty.add_ConditionsPool heap "A" pool).self.importConditionsPool
          specManager "A" "*" ManagerState.fresh
          (ConditionsRootPersistency.empty.add_ConditionsPool heap "A" pool).heap).mgr.pools
          { iovType := { name := pool.iov.iovType.name, type := pool.iov.type },
            type := pool.iov.type, keyData := pool.iov.key }
        = some { iov := { iovType := { name := pool.iov.iovType.name, type := pool.iov.type },
                          type := pool.iov.type, keyData := pool.iov.key },
                 members := pool.members } := by
  rw [add_ConditionsPool_eq]
  refine ⟨rfl, ?_⟩
  simp only [ConditionsRootPersistency.importConditionsPool, import_eq_foldl_filter]
  have hsel : (ConditionsRootPersistency.empty.conditionPools ++
      [(("A", ((pool.iov.iovType.name, pool.iov.type), pool.iov.keyData)), pool.members)]).filter
        (fun e => decide (selected "A" "*" e.1))
      = [(("A", ((pool.iov.iovType.name, pool.iov.type), pool.iov.keyData)), pool.members)] := by
    simp [ConditionsRootPersistency.empty, selected, matchRule]
  rw [hsel, List.foldl_cons, List.foldl_nil]
  have hh : (pool.members.map
      (fun c => (addRefAll pool.members heap c).hash)).Nodup := by
    simpa [addRefAll_hash] using h
  exact processEntry_fresh "A" "*"
    ("A", ((pool.iov.iovType.name, pool.iov.type), pool.iov.keyData)) pool.members
    (addRefAll pool.members heap) hh

set_option maxRecDepth 10000 in
/-- C3 on the example of the specification: three conditions with distinct
hashes, three conditions imported. -/
theorem capture_then_import_sample :
    (samplePool.members.map (fun c => (sampleHeap c).hash)).Nodup
    ∧ ((ConditionsRootPersistency.empty.add_ConditionsPool sampleHeap "A"
          samplePool).self.importConditionsPool
          specManager "A" "*" ManagerState.fresh
          (ConditionsRootPersistency.empty.add_ConditionsPool sampleHeap "A" samplePool).heap).count
        = 3 :=
  ⟨by decide, (capture_then_import_into_fresh_manager samplePool sampleHeap (by decide)).2.1⟩

/-- C4: on the manager of the specification, running the same import again on
the manager and heap the first run left returns 0, emits one duplicate warning
per condition of the selected entries, and leaves the manager, hence the
membership of every pool, as the first run left it; every condition of the
selected entries is attempted and no attempt succeeds. -/
theorem second_import_inserts_nothing (pools : persistent_type) (id pat : String)
    (mgr : ManagerState) (heap : Heap) :
    (ConditionsRootPersistency._import specManager pools id pat
        (ConditionsRootPersistency._import specManager pools id pat mgr heap).mgr
        (ConditionsRootPersistency._import specManager pools id pat mgr heap).heap).count = 0
    ∧ (ConditionsRootPersistency._import specManager pools id pat
        (ConditionsRootPersistency._import specManager pools id pat mgr heap).mgr
        (ConditionsRootPersistency._import specManager pools id pat mgr heap).heap).trace.countP
          Event.isWarning
        = (allConditions (pools.filter (fun e => decide (selected id pat e.1)))).length
    ∧ (ConditionsRootPersistency._import specManager pools id pat
        (ConditionsRootPersistency._import specManager pools id pat mgr heap).mgr
        (ConditionsRootPersistency._import specManager pools id pat mgr heap).heap).mgr
        = (ConditionsRootPersistency._import specManager pools id pat mgr heap).mgr
    ∧ (ConditionsRootPersistency._import specManager pools id pat
        (ConditionsRootPersistency._import specManager pools id pat mgr heap).mgr
        (ConditionsRootPersistency._import specManager pools id pat mgr heap).heap).trace.filterMap
          Event.attempt?
        = allConditions (pools.filter (fun e => decide (selected id pat e.1)))
    ∧ (ConditionsRootPersistency._import specManager pools id pat
        (ConditionsRootPersistency._import specManager pools id pat mgr heap).mgr
        (ConditionsRootPersistency._import specManager pools id pat mgr heap).heap).trace.countP
          Event.isInserted = 0 := by
  simp only [import_eq_foldl_filter]
  generalize pools.filter (fun e => decide (selected id pat e.1)) = l
  obtain ⟨h1, -, h3⟩ := foldl_processEntry_spec_covers (fun x => (heap x).hash) id pat l
    (ImportState.start mgr heap) (fun _ => rfl)
  generalize l.foldl (processEntry specManager id pat) (ImportState.start mgr heap) = r1 at h1 h3
  obtain ⟨g1, g2⟩ := foldl_processEntry_spec_covered (fun x => (heap x).hash) id pat l
    (ImportState.start r1.mgr r1.heap) h3 h1
  obtain ⟨t, k1, k2, k3, k4⟩ := foldl_processEntry_spec_attempts id pat l
    (ImportState.start r1.mgr r1.heap)
  have ht : (l.foldl (processEntry specManager id pat) (ImportState.start r1.mgr r1.heap)).trace
      = t := by
    rw [k1]; simp [ImportState.start]
  have hz : t.countP Event.isInserted = 0 := by
    rw [g2] at k3
    simp only [ImportState.start] at k3
    omega
  refine ⟨?_, ?_, ?_, ?_, ?_⟩
  · rw [g2]; rfl
  · rw [ht]; omega
  · rw [g1]; rfl
  · rw [ht]; exact k2
  · rw [ht]; exact hz

/-- C5: with identifier `"*"` the entries loaded are those passing the IOV-type
filter, whatever identifier they were captured under; with an identifier that is
neither empty nor `"*"` and that no entry carries, `_import` returns 0, makes no
call at all (empty trace) and returns the manager and the heap as they were. -/
theorem import_wildcard_and_unknown_identifier {M P : Type} (ops : ManagerOps M P)
    (pools : persistent_type) (pat : String) (mgr : M) (heap : Heap) :
    ConditionsRootPersistency._import ops pools "*" pat mgr heap
        = (pools.filter (fun e => decide (pat = "" ∨ pat = "*" ∨ e.1.2.1.1 = pat))).foldl
            (processEntry ops "*" pat) (ImportState.start mgr heap)
    ∧ (∀ id : String, id ≠ "" → id ≠ "*" → (∀ e ∈ pools, e.1.1 ≠ id) →
        ConditionsRootPersistency._import ops pools id pat mgr heap
          = { count := 0, mgr := mgr, heap := heap, trace := [] }) := by
  constructor
  · rw [import_eq_foldl_filter]
    congr 2
    funext e
    simp [selected, matchRule]
  · intro id h1 h2 h3
    rw [import_eq_foldl_filter]
    have : pools.filter (fun e => decide (selected id pat e.1)) = [] := by
      rw [List.filter_eq_nil_iff]
      intro e he
      have := h3 e he
      simp [selected, matchRule, h1, h2, this]
    rw [this]
    rfl

set_option maxRecDepth 10000 in
/-- C5 on the captured example: an identifier no entry carries. -/
theorem import_unknown_identifier_sample :
    ("batchB" ≠ "" ∧ "batchB" ≠ "*"
      ∧ ∀ e ∈ sampleCapture.self.conditionPools, e.1.1 ≠ "batchB")
    ∧ ConditionsRootPersistency._import specManager sampleCapture.self.conditionPools
          "batchB" "run" ManagerState.fresh sampleCapture.heap
        = { count := 0, mgr := ManagerState.fresh, heap := sampleCapture.heap, trace := [] } :=
  ⟨⟨by decide, by decide, by decide⟩,
   (import_wildcard_and_unknown_identifier specManager sampleCapture.self.conditionPools "run"
      ManagerState.fresh sampleCapture.heap).2 "batchB" (by decide) (by decide) (by decide)⟩

/-- C6: `add(identifier, pool)` appends exactly one entry at the end of
`conditionPools`, keyed by the identifier, the name of the pool IOV's type with
the pool IOV's discriminator, and the pool IOV's key, holding the sequence
`select_all` yields for the pool; it returns the number of these members and
leaves `iovPools`, `userPools` and the earlier entries as they were. -/
theorem add_ConditionsPool_appends_one_entry (self : ConditionsRootPersistency) (heap : Heap)
    (identifier : String) (pool : ConditionsPool) :
    (self.add_ConditionsPool heap identifier pool).self.conditionPools
        = self.conditionPools ++
            [((identifier, ((pool.iov.iovType.name, pool.iov.type), pool.iov.key)),
              pool.select_all [])]
    ∧ (self.add_ConditionsPool heap identifier pool).count = (pool.select_all []).length
    ∧ (self.add_ConditionsPool heap identifier pool).self.iovPools = self.iovPools
    ∧ (self.add_ConditionsPool heap identifier pool).self.userPools = self.userPools := by
  rw [add_ConditionsPool_eq]
  simp [select_all_nil, IOV.key]

/-- C7: `add(identifier, iovPool)` appends to `iovPools` one entry per element
of the IOV pool, in iteration order, each keyed by the identifier, that pool's
IOV type name and discriminator and the element's interval key, and holding
that pool's `select_all` members; the returned count is the sum of the entry
sizes; the other two catalogs are untouched; for an empty IOV pool the count is
0 and the catalog is unchanged. -/
theorem add_ConditionsIOVPool_appends_one_entry_per_element
    (self : ConditionsRootPersistency) (heap : Heap) (identifier : String)
    (pool : ConditionsIOVPool) :
    (self.add_ConditionsIOVPool heap identifier pool).self.iovPools
        = self.iovPools ++ pool.elements.map (fun p =>
            ((identifier, ((p.2.iov.iovType.name, p.2.iov.type), p.1)), p.2.select_all []))
    ∧ (self.add_ConditionsIOVPool heap identifier pool).count
        = (pool.elements.map (fun p => (p.2.select_all []).length)).sum
    ∧ (self.add_ConditionsIOVPool heap identifier pool).self.conditionPools
        = self.conditionPools
    ∧ (self.add_ConditionsIOVPool heap identifier pool).self.userPools = self.userPools
    ∧ (self.add_ConditionsIOVPool heap identifier { elements := [] }).count = 0
    ∧ (self.add_ConditionsIOVPool heap identifier { elements := [] }).self = self := by
  rw [add_ConditionsIOVPool_eq, add_ConditionsIOVPool_eq]
  simp [select_all_nil]

/-- C8: for each of the three `add` overloads, the reference count of every
condition after the call is its count before plus the number of times it occurs
in the entries the call appended; these increments sum to the returned count;
and a condition that occurs in none of the appended entries is left as it was. -/
theorem add_raises_refCount_once_per_captured_occurrence
    (self : ConditionsRootPersistency) (heap : Heap) (identifier : String) :
    (∀ pool : ConditionsPool,
      (∀ c, ((self.add_ConditionsPool heap identifier pool).heap c).refCount
          = (heap c).refCount
            + ((allConditions ((self.add_ConditionsPool heap identifier pool).self.conditionPools.drop
                self.conditionPools.length)).count c : Int))
      ∧ ((allConditions ((self.add_ConditionsPool heap identifier pool).self.conditionPools.drop
            self.conditionPools.length)).dedup.map
          (fun c => ((self.add_ConditionsPool heap identifier pool).heap c).refCount
            - (heap c).refCount)).sum
          = ((self.add_ConditionsPool heap identifier pool).count : Int)
      ∧ (∀ c, c ∉ allConditions ((self.add_ConditionsPool heap identifier pool).self.conditionPools.drop
            self.conditionPools.length) →
          (self.add_ConditionsPool heap identifier pool).heap c = heap c))
    ∧ (∀ pool : ConditionsIOVPool,
      (∀ c, ((self.add_ConditionsIOVPool heap identifier pool).heap c).refCount
          = (heap c).refCount
            + ((allConditions ((self.add_ConditionsIOVPool heap identifier pool).self.iovPools.drop
                self.iovPools.length)).count c : Int))
      ∧ ((allConditions ((self.add_ConditionsIOVPool heap identifier pool).self.iovPools.drop
            self.iovPools.length)).dedup.map
          (fun c => ((self.add_ConditionsIOVPool heap identifier pool).heap c).refCount
            - (heap c).refCount)).sum
          = ((self.add_ConditionsIOVPool heap identifier pool).count : Int)
      ∧ (∀ c, c ∉ allConditions ((self.add_ConditionsIOVPool heap identifier pool).self.iovPools.drop
            self.iovPools.length) →
          (self.add_ConditionsIOVPool heap identifier pool).heap c = heap c))
    ∧ (∀ pool : UserPool,
      (∀ c, ((self.add_UserPool heap identifier pool).heap c).refCount
          = (heap c).refCount
            + ((allConditions ((self.add_UserPool heap identifier pool).self.userPools.drop
                self.userPools.length)).count c : Int))
      ∧ ((allConditions ((self.add_UserPool heap identifier pool).self.userPools.drop
            self.userPools.length)).dedup.map
          (fun c => ((self.add_UserPool heap identifier pool).heap c).refCount
            - (heap c).refCount)).sum
          = ((self.add_UserPool heap identifier pool).count : Int)
      ∧ (∀ c, c ∉ allConditions ((self.add_UserPool heap identifier pool).self.userPools.drop
            self.userPools.length) →
          (self.add_UserPool heap identifier pool).heap c = heap c)) := by
  refine ⟨?_, ?_, ?_⟩
  · intro pool
    rw [add_ConditionsPool_eq]
    have h : allConditions ((self.conditionPools ++
        [((identifier, ((pool.iov.iovType.name, pool.iov.type), pool.iov.keyData)),
          pool.members)]).drop self.conditionPools.length) = pool.members := by
      simp [allConditions]
    simp only [h]
    exact addRefAll_spec pool.members heap
  · intro pool
    rw [add_ConditionsIOVPool_eq]
    have h : allConditions ((self.iovPools ++ pool.elements.map (fun p =>
        ((identifier, ((p.2.iov.iovType.name, p.2.iov.type), p.1)), p.2.members))).drop
          self.iovPools.length) = pool.elements.flatMap (fun p => p.2.members) := by
      simp [allConditions, List.flatMap_map]
    simp only [h]
    have := addRefAll_spec (pool.elements.flatMap (fun p => p.2.members)) heap
    refine ⟨this.1, ?_, this.2.2⟩
    rw [this.2.1, length_flatMap_members]
  · intro pool
    rw [add_UserPool_eq]
    have h : allConditions ((self.userPools ++
        [((identifier, ((pool.validityIOV.iovType.name, pool.validityIOV.type),
            pool.validityIOV.keyData)), pool.conditions)]).drop self.userPools.length)
        = pool.conditions := by
      simp [allConditions]
    simp only [h]
    exact addRefAll_spec pool.conditions heap

set_option maxRecDepth 10000 in
/-- C8 on the example: condition 7 is in none of the captured pools. -/
theorem add_leaves_other_conditions_sample :
    (7 ∉ allConditions
        ((ConditionsRootPersistency.empty.add_ConditionsPool sampleHeap "batchA"
            samplePool).self.conditionPools.drop
          ConditionsRootPersistency.empty.conditionPools.length)
      ∧ (ConditionsRootPersistency.empty.add_ConditionsPool sampleHeap "batchA"
            samplePool).heap 7 = sampleHeap 7)
    ∧ (7 ∉ allConditions
        ((ConditionsRootPersistency.empty.add_ConditionsIOVPool sampleHeap "batchA"
            sampleIOVPool).self.iovPools.drop
          ConditionsRootPersistency.empty.iovPools.length)
      ∧ (ConditionsRootPersistency.empty.add_ConditionsIOVPool sampleHeap "batchA"
            sampleIOVPool).heap 7 = sampleHeap 7)
    ∧ (7 ∉ allConditions
        ((ConditionsRootPersistency.empty.add_UserPool sampleHeap "batchA"
            sampleUserPool).self.userPools.drop
          ConditionsRootPersistency.empty.userPools.length)
      ∧ (ConditionsRootPersistency.empty.add_UserPool sampleHeap "batchA"
            sampleUserPool).heap 7 = sampleHeap 7) :=
  ⟨⟨by decide,
    ((add_raises_refCount_once_per_captured_occurrence ConditionsRootPersistency.empty
        sampleHeap "batchA").1 samplePool).2.2 7 (by decide)⟩,
   ⟨by decide,
    ((add_raises_refCount_once_per_captured_occurrence ConditionsRootPersistency.empty
        sampleHeap "batchA").2.1 sampleIOVPool).2.2 7 (by decide)⟩,
   ⟨by decide,
    ((add_raises_refCount_once_per_captured_occurrence ConditionsRootPersistency.empty
        sampleHeap "batchA").2.2 sampleUserPool).2.2 7 (by decide)⟩⟩

/-- C9: `clear()` leaves the three catalogs empty and lowers the reference count
of every condition by the number of times it occurs across the three catalogs.
For a catalog built from empty by any sequence of `add` calls, `clear()` brings
every reference count back to its value before the first `add`, and a condition
that had at least one reference then is returned unchanged, so not destroyed. -/
theorem clear_releases_each_captured_occurrence_once :
    (∀ (self : ConditionsRootPersistency) (heap : Heap),
      (self.clear heap).1 = { conditionPools := [], userPools := [], iovPools := [] }
      ∧ ∀ c, ((self.clear heap).2 c).refCount
          = (heap c).refCount - (self.occurrences c : Int))
    ∧ (∀ (calls : List AddCall) (heap : Heap) (c : Condition),
      (((runAdds calls heap).1.clear (runAdds calls heap).2).2 c).refCount
          = (heap c).refCount
      ∧ (1 ≤ (heap c).refCount →
          ((runAdds calls heap).1.clear (runAdds calls heap).2).2 c = heap c)) := by
  constructor
  · intro self heap
    exact ⟨by rw [clear_eq], clear_refCount self heap⟩
  · intro calls heap c
    have hc := captured_runAdds calls heap c
    have hr : (((runAdds calls heap).1.clear (runAdds calls heap).2).2 c).refCount
        = (heap c).refCount := by
      rw [clear_refCount, hc]
      simp
    refine ⟨hr, ?_⟩
    intro h1
    have hd : (((runAdds calls heap).1.clear (runAdds calls heap).2).2 c).destroyed
        = ((runAdds calls heap).2 c).destroyed := by
      apply clear_destroyed
      rw [hc]
      simp only []
      omega
    obtain ⟨f1, f2, f3⟩ := clear_fields (runAdds calls heap).1 (runAdds calls heap).2 c
    apply ConditionObject.eq_of_fields
    · rw [f1, hc]
    · rw [f2, hc]
    · rw [f3, hc]
    · exact hr
    · rw [hd, hc]

/-- C9 on the example: condition 0, captured twice, is back where it was. -/
theorem clear_restores_sample :
    1 ≤ (sampleHeap 0).refCount
    ∧ ((runAdds [AddCall.conditionsPool "batchA" samplePool,
                 AddCall.userPool "batchA" sampleUserPool] sampleHeap).1.clear
        (runAdds [AddCall.conditionsPool "batchA" samplePool,
                  AddCall.userPool "batchA" sampleUserPool] sampleHeap).2).2 0
        = sampleHeap 0 :=
  ⟨by decide,
   (clear_releases_each_captured_occurrence_once.2
      [AddCall.conditionsPool "batchA" samplePool, AddCall.userPool "batchA" sampleUserPool]
      sampleHeap 0).2 (by decide)⟩

set_option maxRecDepth 10000 in
/-- C10 on the example of the specification: the first import inserts the three
conditions, the repeated import reports condition 0 as a duplicate, yet its
reference count goes from 3 to 4; `clear()` then leaves it at 3 although only
the originating pool and the destination pool hold it. -/
theorem import_duplicate_keeps_the_reference_it_took :
    sampleFirstImport.count = 3
    ∧ sampleSecondImport.count = 0
    ∧ sampleSecondImport.trace.countP (Event.isDuplicateOf 0) = 1
    ∧ sampleSecondImport.trace.countP (Event.isInsertedOf 0) = 0
    ∧ (sampleHeap 0).refCount = 1
    ∧ (sampleCapture.heap 0).refCount = 2
    ∧ (sampleFirstImport.heap 0).refCount = 3
    ∧ (sampleSecondImport.heap 0).refCount = 4
    ∧ ((sampleCapture.self.clear sampleSecondImport.heap).2 0).refCount = 3 := by
  decide

/-- C11 (amended): when `insert` leaves the IOV of a pool alone, the last entry
that loads a condition decides its iov. A condition of a selected entry whose
`registerIOVType` call returned a type has, after the import, the IOV of the
pool `registerIOV` returned for that entry, whether its insert succeeded or was
refused, provided every later selected entry that holds the condition too got no
type from its `registerIOVType` call; entries that are not selected play no
part. A condition that is held only by entries that are not selected or got no
type is left as it was, with all its fields, and so is a condition on which no
insert was attempted. In particular the first statement holds when no later
selected entry holds the condition, and the second when no selected entry
does. -/
theorem import_rebinds_iov_to_the_last_loading_pool {M P : Type} (ops : ManagerOps M P)
    (hst : ∀ m heap p c, ops.poolIOV (ops.insert m heap p c).1 p = ops.poolIOV m p)
    (id pat : String) (mgr : M) (heap : Heap) :
    (∀ (pre : persistent_type) (e : iov_key_type × pool_type) (post : persistent_type)
        (typ : IOVType) (c : Condition),
        selected id pat e.1 →
        (ops.registerIOVType (ConditionsRootPersistency._import ops pre id pat mgr heap).mgr
            e.1.2.1.2 e.1.2.1.1).2.2 = some typ →
        c ∈ e.2 →
        (∀ (mid : persistent_type) (x : iov_key_type × pool_type) (rest : persistent_type),
            post = mid ++ x :: rest → selected id pat x.1 → c ∈ x.2 →
            (ops.registerIOVType
                (ConditionsRootPersistency._import ops (pre ++ e :: mid) id pat mgr heap).mgr
                x.1.2.1.2 x.1.2.1.1).2.2 = none) →
        ((ConditionsRootPersistency._import ops (pre ++ e :: post) id pat mgr heap).heap c).iov
          = some (entryIOV ops (ConditionsRootPersistency._import ops pre id pat mgr heap) e typ))
    ∧ (∀ (pools : persistent_type) (c : Condition),
        (∀ (mid : persistent_type) (x : iov_key_type × pool_type) (rest : persistent_type),
            pools = mid ++ x :: rest → selected id pat x.1 → c ∈ x.2 →
            (ops.registerIOVType
                (ConditionsRootPersistency._import ops mid id pat mgr heap).mgr
                x.1.2.1.2 x.1.2.1.1).2.2 = none) →
        (ConditionsRootPersistency._import ops pools id pat mgr heap).heap c = heap c)
    ∧ (∀ (pools : persistent_type) (c : Condition),
        c ∉ (ConditionsRootPersistency._import ops pools id pat mgr heap).trace.filterMap
              Event.attempt? →
        (ConditionsRootPersistency._import ops pools id pat mgr heap).heap c = heap c)
    ∧ (∀ (pre : persistent_type) (e : iov_key_type × pool_type) (post : persistent_type)
        (typ : IOVType) (c : Condition),
        selected id pat e.1 →
        (ops.registerIOVType (ConditionsRootPersistency._import ops pre id pat mgr heap).mgr
            e.1.2.1.2 e.1.2.1.1).2.2 = some typ →
        c ∈ e.2 →
        c ∉ allConditions (post.filter (fun x => decide (selected id pat x.1))) →
        ((ConditionsRootPersistency._import ops (pre ++ e :: post) id pat mgr heap).heap c).iov
          = some (entryIOV ops (ConditionsRootPersistency._import ops pre id pat mgr heap) e typ))
    ∧ (∀ (pools : persistent_type) (c : Condition),
        c ∉ allConditions (pools.filter (fun x => decide (selected id pat x.1))) →
        (ConditionsRootPersistency._import ops pools id pat mgr heap).heap c = heap c) := by
  refine ⟨?_, ?_, ?_, ?_, ?_⟩
  · intro pre e post typ c hsel htyp hc hpost
    have hsplit : ConditionsRootPersistency._import ops (pre ++ e :: post) id pat mgr heap
        = post.foldl (importEntry ops id pat)
            (processEntry ops id pat
              (ConditionsRootPersistency._import ops pre id pat mgr heap) e) := by
      simp only [ConditionsRootPersistency._import, List.foldl_append, List.foldl_cons]
      rw [importEntry_eq, if_pos hsel]
    rw [hsplit, foldl_importEntry_not_loaded ops id pat post _ c]
    · exact processEntry_iov ops hst id pat _ e typ htyp c hc
    · intro mid x rest hl hx hcx
      have h := hpost mid x rest hl hx hcx
      simp only [ConditionsRootPersistency._import, List.foldl_append, List.foldl_cons] at h
      rw [importEntry_eq, if_pos hsel] at h
      exact h
  · intro pools c h
    exact foldl_importEntry_not_loaded ops id pat pools _ c h
  · intro pools c hc
    rw [import_eq_foldl_filter] at hc ⊢
    obtain ⟨t, h1, h2⟩ := foldl_processEntry_untouched_trace ops id pat
      (pools.filter (fun e => decide (selected id pat e.1))) (ImportState.start mgr heap)
    rw [h1] at hc
    simp only [ImportState.start, List.nil_append] at hc
    exact h2 c hc
  · intro pre e post typ c hsel htyp hc hpost
    have hsplit : ConditionsRootPersistency._import ops (pre ++ e :: post) id pat mgr heap
        = (post.filter (fun x => decide (selected id pat x.1))).foldl (processEntry ops id pat)
            (processEntry ops id pat
              (ConditionsRootPersistency._import ops pre id pat mgr heap) e) := by
      simp only [ConditionsRootPersistency._import, List.foldl_append, List.foldl_cons]
      rw [foldl_importEntry_eq ops id pat post, importEntry_eq, if_pos hsel]
    rw [hsplit, foldl_processEntry_untouched ops id pat _ _ c hpost]
    exact processEntry_iov ops hst id pat _ e typ htyp c hc
  · intro pools c hc
    rw [import_eq_foldl_filter]
    exact foldl_processEntry_untouched ops id pat _ _ c hc

set_option maxRecDepth 10000 in
/-- C11 on two catalogs, imported with the identifier "A" into a manager that
knows no type "time". In the first, condition 0 is held by the second entry
and, after it, by an entry of the identifier "B" and by an entry of the type
"time": it ends with the IOV of the pool of the second entry, key (150, 180).
In the second, condition 2 is held by an entry of the type "time" and by an
entry of the identifier "B" only: it is left as it was. -/
theorem import_rebinds_iov_sample :
    (sampleMixedCatalog
        = [(("A", (("run", 1), (100, 200))), [0, 1])]
            ++ (("A", (("run", 1), (150, 180))), [0])
            :: [(("B", (("run", 1), (300, 400))), [0]),
                (("A", (("time", 2), (0, 10))), [0]),
                (("A", (("run", 1), (500, 600))), [1])]
      ∧ selected "A" "*" ("A", (("run", 1), (150, 180)))
      ∧ ((refusingManager "time").registerIOVType
            (ConditionsRootPersistency._import (refusingManager "time")
              [(("A", (("run", 1), (100, 200))), [0, 1])] "A" "*" ManagerState.fresh
              sampleHeap).mgr 1 "run").2.2 = some { name := "run", type := 1 }
      ∧ ¬ selected "A" "*" ("B", (("run", 1), (300, 400)))
      ∧ selected "A" "*" ("A", (("time", 2), (0, 10)))
      ∧ selected "A" "*" ("A", (("run", 1), (500, 600)))
      ∧ (0 : Condition) ∉ [1]
      ∧ ((ConditionsRootPersistency._import (refusingManager "time") sampleMixedCatalog
            "A" "*" ManagerState.fresh sampleHeap).heap 0).iov
          = some { iovType := { name := "run", type := 1 }, type := 1, keyData := (150, 180) })
    ∧ (sampleSkippedCatalog
        = [(("A", (("time", 2), (0, 10))), [2]),
           (("B", (("run", 1), (100, 200))), [2, 1]),
           (("A", (("run", 1), (100, 200))), [0, 1])]
      ∧ (ConditionsRootPersistency._import (refusingManager "time") sampleSkippedCatalog
            "A" "*" ManagerState.fresh sampleHeap).heap 2 = sampleHeap 2
      ∧ ((ConditionsRootPersistency._import (refusingManager "time") sampleSkippedCatalog
            "A" "*" ManagerState.fresh sampleHeap).heap 1).iov
          = some { iovType := { name := "run", type := 1 }, type := 1, keyData := (100, 200) }) :=
  ⟨⟨rfl, by decide, by decide, by decide, by decide, by decide, by decide,
    (import_rebinds_iov_to_the_last_loading_pool (refusingManager "time")
      (refusingManager_poolIOV_insert "time") "A" "*" ManagerState.fresh sampleHeap).1
      [(("A", (("run", 1), (100, 200))), [0, 1])]
      (("A", (("run", 1), (150, 180))), [0])
      [(("B", (("run", 1), (300, 400))), [0]),
       (("A", (("time", 2), (0, 10))), [0]),
       (("A", (("run", 1), (500, 600))), [1])]
      { name := "run", type := 1 } 0 (by decide) (by decide) (by decide)
      (by
        intro mid x rest h hsel hc
        rcases mid with _ | ⟨a, _ | ⟨b, _ | ⟨d, mid⟩⟩⟩
        · simp only [List.nil_append, List.cons.injEq] at h
          obtain ⟨rfl, -⟩ := h
          exact absurd hsel (by decide)
        · simp only [List.cons_append, List.nil_append, List.cons.injEq] at h
          obtain ⟨rfl, rfl, -⟩ := h
          decide
        · simp only [List.cons_append, List.nil_append, List.cons.injEq] at h
          obtain ⟨rfl, rfl, rfl, -⟩ := h
          exact absurd hc (by decide)
        · simp at h)⟩,
   ⟨rfl,
    (import_rebinds_iov_to_the_last_loading_pool (refusingManager "time")
      (refusingManager_poolIOV_insert "time") "A" "*" ManagerState.fresh sampleHeap).2.1
      sampleSkippedCatalog 2
      (by
        intro mid x rest h hsel hc
        rcases mid with _ | ⟨a, _ | ⟨b, _ | ⟨d, mid⟩⟩⟩
        · simp only [sampleSkippedCatalog, List.nil_append, List.cons.injEq] at h
          obtain ⟨rfl, -⟩ := h
          decide
        · simp only [sampleSkippedCatalog, List.cons_append, List.nil_append,
            List.cons.injEq] at h
          obtain ⟨rfl, rfl, -⟩ := h
          exact absurd hsel (by decide)
        · simp only [sampleSkippedCatalog, List.cons_append, List.nil_append,
            List.cons.injEq] at h
          obtain ⟨rfl, rfl, rfl, -⟩ := h
          exact absurd hc (by decide)
        · simp [sampleSkippedCatalog] at h),
    by decide⟩⟩

set_option maxRecDepth 10000 in
/-- C11 as stated fails on shared conditions. A pool captured under the
identifiers "A" and "B" and imported with identifier "A": condition 0 is held by
the entry "B", which is not selected, yet its iov is rebound. Two user pools
with the keys (100, 200) and (150, 180) that share condition 0, imported with
"*": the first entry is selected and gets a type, its pool has the IOV with key
(100, 200), yet condition 0 ends with the IOV of key (150, 180). -/
theorem import_rebinds_shared_conditions :
    (sampleTwoIdentifiers.1.conditionPools
        = [(("A", (("run", 1), (100, 200))), [0, 1, 2]),
           (("B", (("run", 1), (100, 200))), [0, 1, 2])]
      ∧ ¬ selected "A" "*" ("B", (("run", 1), (100, 200)))
      ∧ (sampleTwoIdentifiers.2 0).iov = none
      ∧ ((sampleTwoIdentifiers.1.importConditionsPool specManager "A" "*" ManagerState.fresh
            sampleTwoIdentifiers.2).heap 0).iov
          = some { iovType := { name := "run", type := 1 }, type := 1, keyData := (100, 200) })
    ∧ (sampleTwoUserPools.1.userPools
        = [(("A", (("run", 1), (100, 200))), [0, 1]),
           (("A", (("run", 1), (150, 180))), [0])]
      ∧ selected "A" "*" ("A", (("run", 1), (100, 200)))
      ∧ (specManager.registerIOVType ManagerState.fresh 1 "run").2.2
          = some { name := "run", type := 1 }
      ∧ entryIOV specManager (ImportState.start ManagerState.fresh sampleTwoUserPools.2)
            (("A", (("run", 1), (100, 200))), [0, 1]) { name := "run", type := 1 }
          = { iovType := { name := "run", type := 1 }, type := 1, keyData := (100, 200) }
      ∧ ((sampleTwoUserPools.1.importUserPool specManager "A" "*" ManagerState.fresh
            sampleTwoUserPools.2).heap 0).iov
          = some { iovType := { name := "run", type := 1 }, type := 1, keyData := (150, 180) }) := by
  refine ⟨⟨?_, ?_, ?_, ?_⟩, ⟨?_, ?_, ?_, ?_, ?_⟩⟩
  all_goals decide

/-- C12: `save(path)` returns -1 when opening the storage in create/overwrite
mode fails (null pointer or zombie); the translation has no raising path. When
the storage opens, it returns the value `save(handle)` returns on the opened
handle and its storage calls are `Open`, the `WriteTObject` of `save(handle)`,
`Close` and `delete` on that handle. When `WriteTObject` returns a byte count,
a number that is not negative, the result is -1 if and only if opening
failed. -/
theorem save_path_returns_minus_one_iff_open_fails {F : Type} (self : PersistencyObject)
    (ops : TFileOps F) (clock : Clock) (fname : String) :
    (ops.openFails fname = true →
        (self.save ops clock fname).value = (-1, [FileCall.Open fname "RECREATE"]))
    ∧ (∀ file, ops.Open fname "RECREATE" = some file → ops.IsZombie file = false →
        (self.save ops clock fname).value.1
            = (self.save_TFile ops (DurationStamp.construct clock).2 file).value.1
        ∧ (self.save ops clock fname).value.2
            = FileCall.Open fname "RECREATE"
                :: (self.save_TFile ops (DurationStamp.construct clock).2 file).value.2
                ++ [FileCall.Close file, FileCall.deleted file])
    ∧ ((∀ file object name, 0 ≤ ops.WriteTObject file object name) →
        ((self.save ops clock fname).value.1 = -1 ↔ ops.openFails fname = true)) := by
  refine ⟨?_, ?_, ?_⟩
  · intro h
    rw [save_of_openFails self ops clock fname h]
  · intro file h1 h2
    rw [save_of_open self ops clock fname file h1 h2]
    simp [PersistencyObject.save_TFile]
  · intro hpos
    constructor
    · intro h
      by_contra hf
      have hf' : ops.openFails fname = false := by simpa using hf
      obtain ⟨file, h1, h2⟩ := openFails_eq_false ops fname hf'
      rw [save_of_open self ops clock fname file h1 h2] at h
      simp only [PersistencyObject.save_TFile] at h
      have := hpos file self self.name
      omega
    · intro h
      rw [save_of_openFails self ops clock fname h]

set_option maxRecDepth 10000 in
/-- C12 on the storage of the example: `"x.dat"` opens and 100 bytes are
written, `"/"` does not open. -/
theorem save_path_sample :
    (sampleStorage.openFails "/" = true
      ∧ sampleStorage.Open "x.dat" "RECREATE" = some 0
      ∧ sampleStorage.IsZombie 0 = false)
    ∧ (({ name := "Conditions", catalogs := sampleCapture.self, duration := 0 } :
          PersistencyObject).save sampleStorage sampleClock "/").value
        = (-1, [FileCall.Open "/" "RECREATE"])
    ∧ (({ name := "Conditions", catalogs := sampleCapture.self, duration := 0 } :
          PersistencyObject).save sampleStorage sampleClock "x.dat").value.1 = 100 :=
  ⟨⟨by decide, by decide, by decide⟩,
   (save_path_returns_minus_one_iff_open_fails
      { name := "Conditions", catalogs := sampleCapture.self, duration := 0 }
      sampleStorage sampleClock "/").1 (by decide),
   ((save_path_returns_minus_one_iff_open_fails
      { name := "Conditions", catalogs := sampleCapture.self, duration := 0 }
      sampleStorage sampleClock "x.dat").2.1 0 (by decide) (by decide)).1⟩

/-- C13: `load(handle, objectName)` raises if and only if the handle is a null
pointer or a zombie or the handle holds no object of that name; otherwise it
returns the stored object, never an empty pointer, with `duration` set to the
time the `Get` took and every other member as stored. -/
theorem load_raises_iff_invalid_or_absent {F : Type} (ops : TFileOps F) (clock : Clock)
    (file : Option F) (obj : String) :
    ((∃ msg, (PersistencyObject.load ops clock file obj).1 = Except.error msg)
        ↔ (file = none ∨ ∃ f, file = some f ∧ (ops.IsZombie f = true ∨ ops.Get f obj = none)))
    ∧ (∀ f stored, file = some f → ops.IsZombie f = false → ops.Get f obj = some stored →
        (PersistencyObject.load ops clock file obj).1
          = Except.ok (some (PersistencyObject.mk stored.name stored.catalogs
              (clock.readings (clock.taken + 1) - clock.readings clock.taken))))
    ∧ (PersistencyObject.load ops clock file obj).1 ≠ Except.ok none := by
  cases file with
  | none => simp [PersistencyObject.load]
  | some f =>
    cases hz : ops.IsZombie f with
    | true =>
      simp only [PersistencyObject.load, hz]
      refine ⟨by simp [hz], ?_, by simp⟩
      intro g stored hfg hzg
      cases hfg
      rw [hz] at hzg
      cases hzg
    | false =>
      cases hg : ops.Get f obj with
      | none =>
        simp only [PersistencyObject.load, hz, hg]
        refine ⟨by simp [hz, hg], ?_, by simp⟩
        intro g stored hfg _ hgg
        cases hfg
        rw [hg] at hgg
        cases hgg
      | some stored =>
        simp only [PersistencyObject.load, hz, hg]
        refine ⟨by simp [hz, hg], ?_, by simp⟩
        intro g stored2 hfg _ hgg
        cases hfg
        rw [hg] at hgg
        cases hgg
        simp [Clock.read]

set_option maxRecDepth 10000 in
/-- C13 on the storage of the example: the object stored as `"Conditions"` is
returned with the duration of the read. -/
theorem load_sample :
    ((some 0 : Option Nat) = some 0 ∧ sampleStorage.IsZombie 0 = false
      ∧ sampleStorage.Get 0 "Conditions"
          = some { name := "Conditions", catalogs := sampleCapture.self, duration := 0 })
    ∧ (PersistencyObject.load sampleStorage sampleClock (some 0) "Conditions").1
        = Except.ok (some (PersistencyObject.mk "Conditions" sampleCapture.self
            (sampleClock.readings (sampleClock.taken + 1)
              - sampleClock.readings sampleClock.taken))) :=
  ⟨⟨rfl, by decide, by decide⟩,
   (load_raises_iff_invalid_or_absent sampleStorage sampleClock (some 0) "Conditions").2.1 0
      { name := "Conditions", catalogs := sampleCapture.self, duration := 0 }
      rfl (by decide) (by decide)⟩

/-- C14 (amended): every public mutating operation that carries a
`DurationStamp`, that is the three `add` overloads, the three imports and both
`save` overloads, leaves `duration` equal to the clock reading at its exit
minus the reading at its entry, whatever `duration` was before; for
`save(path)` these are the first and the last reading of the outer call, the
two readings of the inner `save(handle)` lying between them. `clear()` reads
no clock and leaves `duration` as it was. -/
theorem duration_is_exit_minus_entry_reading (self : PersistencyObject) (clock : Clock) :
    (∀ (heap : Heap) (identifier : String),
      (∀ pool : ConditionsPool,
        (self.add_ConditionsPool clock heap identifier pool).self.duration
          = clock.readings (clock.taken + 1) - clock.readings clock.taken)
      ∧ (∀ pool : ConditionsIOVPool,
        (self.add_ConditionsIOVPool clock heap identifier pool).self.duration
          = clock.readings (clock.taken + 1) - clock.readings clock.taken)
      ∧ (∀ pool : UserPool,
        (self.add_UserPool clock heap identifier pool).self.duration
          = clock.readings (clock.taken + 1) - clock.readings clock.taken))
    ∧ (∀ (M P : Type) (ops : ManagerOps M P) (id pat : String) (mgr : M) (heap : Heap),
      (self.importConditionsPool ops clock id pat mgr heap).self.duration
          = clock.readings (clock.taken + 1) - clock.readings clock.taken
      ∧ (self.importIOVPool ops clock id pat mgr heap).self.duration
          = clock.readings (clock.taken + 1) - clock.readings clock.taken
      ∧ (self.importUserPool ops clock id pat mgr heap).self.duration
          = clock.readings (clock.taken + 1) - clock.readings clock.taken)
    ∧ (∀ (F : Type) (ops : TFileOps F),
      (∀ file : F, (self.save_TFile ops clock file).self.duration
          = clock.readings (clock.taken + 1) - clock.readings clock.taken)
      ∧ (∀ fname : String, (self.save ops clock fname).self.duration
          = if ops.openFails fname
            then clock.readings (clock.taken + 1) - clock.readings clock.taken
            else clock.readings (clock.taken + 3) - clock.readings clock.taken))
    ∧ (∀ heap : Heap, (self.clear heap).1.duration = self.duration) := by
  refine ⟨?_, ?_, ?_, ?_⟩
  · intro heap identifier
    refine ⟨?_, ?_, ?_⟩ <;> intro pool <;>
      simp [PersistencyObject.add_ConditionsPool, PersistencyObject.add_ConditionsIOVPool,
        PersistencyObject.add_UserPool, DurationStamp.construct, DurationStamp.destruct,
        Clock.read]
  · intro M P ops id pat mgr heap
    simp [PersistencyObject.importConditionsPool, PersistencyObject.importIOVPool,
      PersistencyObject.importUserPool, DurationStamp.construct, DurationStamp.destruct,
      Clock.read]
  · intro F ops
    constructor
    · intro file
      simp [PersistencyObject.save_TFile, DurationStamp.construct, DurationStamp.destruct,
        Clock.read]
    · intro fname
      cases h : ops.openFails fname with
      | true => rw [save_of_openFails self ops clock fname h]; simp
      | false =>
        obtain ⟨file, h1, h2⟩ := openFails_eq_false ops fname h
        rw [save_of_open self ops clock fname file h1 h2]
        simp
  · intro heap
    rfl

set_option maxRecDepth 10000 in
/-- C14 as stated fails for `clear()`: on the captured example it leaves a
duration of 5 at 5 and a duration of 7 at 7, so the value after the call is the
value before it and no clock reading. -/
theorem clear_keeps_duration_sample :
    ((PersistencyObject.mk "Conditions" sampleCapture.self 5).clear sampleCapture.heap).1
        = PersistencyObject.mk "Conditions" ConditionsRootPersistency.empty 5
    ∧ ((PersistencyObject.mk "Conditions" sampleCapture.self 7).clear sampleCapture.heap).1
        = PersistencyObject.mk "Conditions" ConditionsRootPersistency.empty 7 := by
  constructor <;> decide

/-- C16: an import call returns the object with the catalogs it had, entry for
entry, and with its name; on the heap it leaves the name, the hash and the
destroyed flag of every condition as they were, so only `iov` and the
reference count can differ; and a `clear()` after the import empties the
catalogs and releases every condition once per occurrence in the catalogs as
they were before the import. -/
theorem import_keeps_the_catalogs {M P : Type} (self : PersistencyObject)
    (ops : ManagerOps M P) (clock : Clock) (id pat : String) (mgr : M) (heap : Heap) :
    ((self.importConditionsPool ops clock id pat mgr heap).self.catalogs = self.catalogs
      ∧ (self.importIOVPool ops clock id pat mgr heap).self.catalogs = self.catalogs
      ∧ (self.importUserPool ops clock id pat mgr heap).self.catalogs = self.catalogs)
    ∧ ((self.importConditionsPool ops clock id pat mgr heap).self.name = self.name
      ∧ (self.importIOVPool ops clock id pat mgr heap).self.name = self.name
      ∧ (self.importUserPool ops clock id pat mgr heap).self.name = self.name)
    ∧ (∀ (pools : persistent_type) (c : Condition),
        ((ConditionsRootPersistency._import ops pools id pat mgr heap).heap c).name
            = (heap c).name
        ∧ ((ConditionsRootPersistency._import ops pools id pat mgr heap).heap c).hash
            = (heap c).hash
        ∧ ((ConditionsRootPersistency._import ops pools id pat mgr heap).heap c).destroyed
            = (heap c).destroyed)
    ∧ (∀ c : Condition,
      (((self.importConditionsPool ops clock id pat mgr heap).self.clear
            (self.importConditionsPool ops clock id pat mgr heap).value.heap).1.catalogs
          = ConditionsRootPersistency.empty
        ∧ (((self.importConditionsPool ops clock id pat mgr heap).self.clear
            (self.importConditionsPool ops clock id pat mgr heap).value.heap).2 c).refCount
          = ((self.importConditionsPool ops clock id pat mgr heap).value.heap c).refCount
            - (self.catalogs.occurrences c : Int))
      ∧ (((self.importIOVPool ops clock id pat mgr heap).self.clear
            (self.importIOVPool ops clock id pat mgr heap).value.heap).1.catalogs
          = ConditionsRootPersistency.empty
        ∧ (((self.importIOVPool ops clock id pat mgr heap).self.clear
            (self.importIOVPool ops clock id pat mgr heap).value.heap).2 c).refCount
          = ((self.importIOVPool ops clock id pat mgr heap).value.heap c).refCount
            - (self.catalogs.occurrences c : Int))
      ∧ (((self.importUserPool ops clock id pat mgr heap).self.clear
            (self.importUserPool ops clock id pat mgr heap).value.heap).1.catalogs
          = ConditionsRootPersistency.empty
        ∧ (((self.importUserPool ops clock id pat mgr heap).self.clear
            (self.importUserPool ops clock id pat mgr heap).value.heap).2 c).refCount
          = ((self.importUserPool ops clock id pat mgr heap).value.heap c).refCount
            - (self.catalogs.occurrences c : Int))) := by
  refine ⟨⟨rfl, rfl, rfl⟩, ⟨rfl, rfl, rfl⟩, ?_, ?_⟩
  · intro pools c
    exact import_fields ops pools id pat mgr heap c
  · intro c
    refine ⟨⟨?_, ?_⟩, ⟨?_, ?_⟩, ⟨?_, ?_⟩⟩
    · simp [PersistencyObject.clear, PersistencyObject.importConditionsPool,
        DurationStamp.destruct, clear_eq, ConditionsRootPersistency.empty]
    · simp only [PersistencyObject.clear, PersistencyObject.importConditionsPool,
        DurationStamp.destruct]
      exact clear_refCount self.catalogs _ c
    · simp [PersistencyObject.clear, PersistencyObject.importIOVPool,
        DurationStamp.destruct, clear_eq, ConditionsRootPersistency.empty]
    · simp only [PersistencyObject.clear, PersistencyObject.importIOVPool,
        DurationStamp.destruct]
      exact clear_refCount self.catalogs _ c
    · simp [PersistencyObject.clear, PersistencyObject.importUserPool,
        DurationStamp.destruct, clear_eq, ConditionsRootPersistency.empty]
    · simp only [PersistencyObject.clear, PersistencyObject.importUserPool,
        DurationStamp.destruct]
      exact clear_refCount self.catalogs _ c

/-- C15: capture does not deduplicate, import does. For a pool whose conditions
have pairwise distinct hashes, two calls `add(id, pool)` on an empty catalog
give two `conditionPools` entries with the same key, each holding the members of
the pool, and raise the reference count of every member by 2, leaving every
other condition alone. Importing that catalog into a fresh manager of the
specification, with filters that select the key, returns the number of members:
the insert of every condition of the first entry succeeds and the insert of
every condition of the second entry is refused as a duplicate. -/
theorem capture_twice_import_once (identifier : String) (pool : ConditionsPool) (heap : Heap)
    (fid fpat : String)
    (h : (pool.members.map (fun c => (heap c).hash)).Nodup)
    (hsel : selected fid fpat
      (identifier, ((pool.iov.iovType.name, pool.iov.type), pool.iov.key))) :
    (runAdds [AddCall.conditionsPool identifier pool, AddCall.conditionsPool identifier pool]
        heap).1.conditionPools
        = [((identifier, ((pool.iov.iovType.name, pool.iov.type), pool.iov.key)),
              pool.select_all []),
           ((identifier, ((pool.iov.iovType.name, pool.iov.type), pool.iov.key)),
              pool.select_all [])]
    ∧ (∀ c, (c ∈ pool.members →
          ((runAdds [AddCall.conditionsPool identifier pool,
              AddCall.conditionsPool identifier pool] heap).2 c).refCount
            = (heap c).refCount + 2)
        ∧ (c ∉ pool.members →
          (runAdds [AddCall.conditionsPool identifier pool,
              AddCall.conditionsPool identifier pool] heap).2 c = heap c))
    ∧ ((runAdds [AddCall.conditionsPool identifier pool, AddCall.conditionsPool identifier pool]
          heap).1.importConditionsPool specManager fid fpat ManagerState.fresh
        (runAdds [AddCall.conditionsPool identifier pool, AddCall.conditionsPool identifier pool]
          heap).2).count = pool.members.length
    ∧ ((runAdds [AddCall.conditionsPool identifier pool, AddCall.conditionsPool identifier pool]
          heap).1.importConditionsPool specManager fid fpat ManagerState.fresh
        (runAdds [AddCall.conditionsPool identifier pool, AddCall.conditionsPool identifier pool]
          heap).2).trace.filterMap Event.insertResult?
        = pool.members.map (fun c => (c, true)) ++ pool.members.map (fun c => (c, false)) := by
  have hn : pool.members.Nodup := List.Nodup.of_map _ h
  rw [runAdds_twice]
  refine ⟨by simp [select_all_nil, IOV.key], fun c => addRefAll_twice_nodup pool.members heap hn c,
    ?_⟩
  simp only [ConditionsRootPersistency.importConditionsPool, import_eq_foldl_filter]
  have hf : [((identifier, ((pool.iov.iovType.name, pool.iov.type), pool.iov.keyData)),
        pool.members),
      ((identifier, ((pool.iov.iovType.name, pool.iov.type), pool.iov.keyData)),
        pool.members)].filter (fun e => decide (selected fid fpat e.1))
      = [((identifier, ((pool.iov.iovType.name, pool.iov.type), pool.iov.keyData)),
            pool.members),
         ((identifier, ((pool.iov.iovType.name, pool.iov.type), pool.iov.keyData)),
            pool.members)] := by
    have hsel' : selected fid fpat
        (identifier, ((pool.iov.iovType.name, pool.iov.type), pool.iov.keyData)) := hsel
    simp [List.filter_cons, hsel']
  rw [hf]
  have hh : (pool.members.map
      (fun c => (addRefAll pool.members (addRefAll pool.members heap) c).hash)).Nodup := by
    simpa [addRefAll_hash] using h
  exact processEntry_twice_fresh fid fpat _ pool.members _ hh

set_option maxRecDepth 10000 in
/-- C15 on the example of the specification: three conditions captured twice,
three imported. -/
theorem capture_twice_import_once_sample :
    ((samplePool.members.map (fun c => (sampleHeap c).hash)).Nodup
      ∧ selected "batchA" "*"
          ("batchA", ((samplePool.iov.iovType.name, samplePool.iov.type), samplePool.iov.key)))
    ∧ ((runAdds [AddCall.conditionsPool "batchA" samplePool,
            AddCall.conditionsPool "batchA" samplePool]
          sampleHeap).1.importConditionsPool specManager "batchA" "*" ManagerState.fresh
        (runAdds [AddCall.conditionsPool "batchA" samplePool,
            AddCall.conditionsPool "batchA" samplePool] sampleHeap).2).count = 3 :=
  ⟨⟨by decide, by decide⟩,
   (capture_twice_import_once "batchA" samplePool sampleHeap "batchA" "*" (by decide)
      (by decide)).2.2.1⟩

/-- C17 (amended): `DetElement::add(child)` with a valid argument. On a valid
parent that has no child of the argument's name it returns the parent handle
and leaves the argument in the children map of the parent under its name, every
other entry of that map and every other children map as it was, the parent link
of the argument set to the parent and every other parent link and every name as
it was. On a valid parent that has a child of that name already, whenever the
call comes to an end it has raised the Double-Insert error and changed no name,
parent link or children map; and it does come to that end when the chain of
parent links from the parent reaches an element without parent (fuel at least
the length of that chain). On an invalid parent handle it raises the
Invalid-Handle error and changes nothing. -/
theorem add_child_or_raise (hash32 : String → Nat) (heap : DetHeap) (sdet : Nat) :
    (∀ (fuel p : Nat), (heap p).children (heap sdet).name = none →
      ∃ heap', DetElement.add hash32 fuel heap (some p) sdet
          = some (AddOutcome.returned (some p) heap')
        ∧ (heap' p).children (heap sdet).name = some (some sdet)
        ∧ (∀ n, n ≠ (heap sdet).name → (heap' p).children n = (heap p).children n)
        ∧ (∀ x, x ≠ p → (heap' x).children = (heap x).children)
        ∧ (heap' sdet).parent = some p
        ∧ (∀ x, x ≠ sdet → (heap' x).parent = (heap x).parent)
        ∧ (∀ x, (heap' x).name = (heap x).name))
    ∧ (∀ (p : Nat) (c : DetElement), (heap p).children (heap sdet).name = some c →
      (∀ (fuel : Nat) (out : AddOutcome),
          DetElement.add hash32 fuel heap (some p) sdet = some out →
          ∃ thisPath heap', out = AddOutcome.raised
              ("DetElement::add: Element " ++ (heap sdet).name ++ " is already present in path "
                ++ thisPath ++ " [Double-Insert]") heap'
            ∧ SameHierarchy heap heap')
      ∧ (∀ (n fuel : Nat), parentChainEnds heap n p = true → n ≤ fuel →
          ∃ thisPath heap', DetElement.add hash32 fuel heap (some p) sdet
              = some (AddOutcome.raised
                  ("DetElement::add: Element " ++ (heap sdet).name
                    ++ " is already present in path " ++ thisPath ++ " [Double-Insert]") heap')
            ∧ SameHierarchy heap heap'))
    ∧ (∀ fuel : Nat, DetElement.add hash32 fuel heap none sdet
        = some (AddOutcome.raised "DetElement::add: Self is not defined [Invalid Handle]"
            heap)) := by
  refine ⟨?_, ?_, ?_⟩
  · intro fuel p h
    refine ⟨_, add_of_absent hash32 fuel heap p sdet h, ?_, ?_, ?_, ?_, ?_, ?_⟩
    · by_cases hps : p = sdet
      · subst hps; simp
      · simp [Function.update_noteq hps]
    · intro n hn
      by_cases hps : p = sdet
      · subst hps; simp [Function.update_noteq hn]
      · simp [Function.update_noteq hps, Function.update_noteq hn]
    · intro x hx
      by_cases hxs : x = sdet
      · subst hxs; simp [Function.update_noteq hx]
      · simp [Function.update_noteq hxs, Function.update_noteq hx]
    · simp
    · intro x hx
      by_cases hxp : x = p
      · subst hxp; simp [Function.update_noteq hx]
      · simp [Function.update_noteq hx, Function.update_noteq hxp]
    · intro x
      by_cases hxs : x = sdet
      · subst hxs
        by_cases hxp : x = p
        · subst hxp; simp
        · simp [Function.update_noteq hxp]
      · by_cases hxp : x = p
        · subst hxp; simp [Function.update_noteq hxs]
        · simp [Function.update_noteq hxs, Function.update_noteq hxp]
  · intro p c h
    constructor
    · intro fuel out ho
      rw [add_of_present hash32 fuel heap p sdet c h] at ho
      cases hp : DetElement.path hash32 fuel heap (some p) with
      | none => rw [hp] at ho; cases ho
      | some r =>
        obtain ⟨heap1, thisPath⟩ := r
        rw [hp] at ho
        simp only [Option.some.injEq] at ho
        have hs := pathWith_sameHierarchy _ (make_path_sameHierarchy hash32 fuel) heap (some p)
          heap1 thisPath hp
        refine ⟨thisPath, heap1, ?_, hs⟩
        rw [← ho, (hs sdet).1]
    · intro n fuel hc hn
      obtain ⟨heap1, thisPath, hp⟩ := path_terminates hash32 n fuel heap p hc hn
      have hs := pathWith_sameHierarchy _ (make_path_sameHierarchy hash32 fuel) heap (some p)
        heap1 thisPath hp
      refine ⟨thisPath, heap1, ?_, hs⟩
      rw [add_of_present hash32 fuel heap p sdet c h, hp]
      simp only []
      rw [(hs sdet).1]
  · intro fuel
    rfl

set_option maxRecDepth 10000 in
/-- C17 on two elements: `a.add(b)` on the new elements returns `a`, and the
same call again on the heap it leaves raises, `a` having no parent. -/
theorem add_child_sample :
    ((freshElements 0).children (freshElements 1).name = none
      ∧ (oneChild 0).children (oneChild 1).name = some (some 1)
      ∧ parentChainEnds oneChild 1 0 = true ∧ 1 ≤ 1)
    ∧ (∃ heap', DetElement.add String.length 0 freshElements (some 0) 1
          = some (AddOutcome.returned (some 0) heap')
        ∧ (heap' 0).children (freshElements 1).name = some (some 1)
        ∧ (heap' 1).parent = some 0)
    ∧ (∃ thisPath heap', DetElement.add String.length 1 oneChild (some 0) 1
          = some (AddOutcome.raised
              ("DetElement::add: Element " ++ (oneChild 1).name
                ++ " is already present in path " ++ thisPath ++ " [Double-Insert]") heap')
        ∧ SameHierarchy oneChild heap') :=
  ⟨⟨by decide, by decide, by decide, by decide⟩,
   (let ⟨heap', h1, h2, _, _, h5, _, _⟩ :=
      (add_child_or_raise String.length freshElements 1).1 0 0 (by decide)
    ⟨heap', h1, h2, h5⟩),
   ((add_child_or_raise String.length oneChild 1).2.1 0 (some 1) (by decide)).2 1 1
      (by decide) (by decide)⟩

set_option maxRecDepth 10000 in
/-- C17 as stated fails when the parent links form a cycle. After `a.add(b)`
and `b.add(a)` on two new elements each is the parent of the other and neither
has a cached path; `b` is a child of `a`, yet `a.add(b)` neither returns nor
raises: the path it evaluates for the message recurses from `a` to `b` and back
without end. -/
theorem add_on_cyclic_parents_does_not_raise :
    (cyclicElements 0).children (cyclicElements 1).name = some (some 1)
    ∧ (cyclicElements 0).parent = some 1
    ∧ (cyclicElements 1).parent = some 0
    ∧ ¬ ∃ fuel out, DetElement.add String.length fuel cyclicElements (some 0) 1 = some out := by
  have h0 : (cyclicElements 0).children (cyclicElements 1).name = some (some 1) := by decide
  have h1 : (cyclicElements 0).parent = some 1 := by decide
  have h2 : (cyclicElements 1).parent = some 0 := by decide
  have p0 : (cyclicElements 0).path = "" := by decide
  have p1 : (cyclicElements 1).path = "" := by decide
  refine ⟨h0, h1, h2, ?_⟩
  rintro ⟨fuel, out, h⟩
  rw [add_of_present String.length fuel cyclicElements 0 1 (some 1) h0] at h
  have he : ("" : String).isEmpty = true := by decide
  have hp : DetElement.path String.length fuel cyclicElements (some 0) = none := by
    simp [DetElement.path, pathWith, p0, he,
      (make_path_cycle String.length cyclicElements 0 1 h1 h2 p0 p1 fuel).1]
  rw [hp] at h
  cases h

end dd4hep
